import Mathlib

/-!
# Novel text model of starc: parsers, numbering, name replacement, dialogue queries

A shallow embedding of

* `src/corelib/business_layer/model/novel/text/novel_text_block_parser.cpp`
  (`NovelCharacterParser`, `NovelSceneHeadingParser`, `NovelSceneCharactersParser`),
* `src/corelib/business_layer/model/novel/text/novel_text_model.cpp`
  (`updateNumbering`, `updateCharacterName`, `updateLocationName`,
  `characterDialogues`, `findCharactersFromText`, `findLocationsFromText`,
  `itemsColors`),
* `src/core/management_layer/content/projects/project.cpp`
  (`operator==` of `Project`, `ProjectsModel::moveProject`).

Strings: a `QString` is modelled as a list of characters.  The Qt string
operations the code calls (`split`, `indexOf`, `mid`, `remove`, `simplified`,
`contains`) are library code; they are written out here as structural
recursions that follow the Qt documentation.
-/

namespace Starc

/-! ## Qt string primitives -/

/-- A `QString`, as the sequence of its characters. -/
abbrev QString := List Char

/-- The text of a string literal as a `QString`. -/
def qs (s : String) : QString := s.toList

/-- `QChar::isSpace`: the ASCII white space 0x09..0x0D and 0x20, NEL, the
no-break space, and the Unicode separators (categories Zs, Zl, Zp). -/
def isSpace (c : Char) : Bool :=
  let n := c.toNat
  n == 0x20 || (0x09 ≤ n && n ≤ 0x0D) || n == 0x85 || n == 0xA0 || n == 0x1680
    || (0x2000 ≤ n && n ≤ 0x200A) || n == 0x2028 || n == 0x2029 || n == 0x202F
    || n == 0x205F || n == 0x3000

/-- Scanner behind `QString::simplified`: `started` says that a non-space
character has already been written, `pending` that white space was read after
it and a single space is owed before the next non-space character. -/
def simplifiedGo : Bool → Bool → QString → QString
  | _, _, [] => []
  | started, pending, c :: cs =>
    if isSpace c then simplifiedGo started started cs
    else if pending then ' ' :: c :: simplifiedGo true false cs
    else c :: simplifiedGo true false cs

/-- `QString::simplified`: white space removed from both ends, every inner run
of white space replaced by one space. -/
def simplified (s : QString) : QString := simplifiedGo false false s

/-- Scanner behind `QString::indexOf`: the first position, counted from `pos`,
at which `sub` starts in the remaining text. -/
def indexOfGo (sub : QString) : QString → Nat → Option Nat
  | [], pos => if sub.isEmpty then some pos else none
  | c :: cs, pos => if sub.isPrefixOf (c :: cs) then some pos else indexOfGo sub cs (pos + 1)

/-- `QString::indexOf(sub, from)` for a non-negative `from`: the index of the
first occurrence at or after `from`, or `-1`. -/
def indexOf (s sub : QString) (start : Nat) : Int :=
  if s.length < start then -1
  else match indexOfGo sub (s.drop start) start with
    | some i => (i : Int)
    | none => -1

/-- `QString::contains(sub)`. -/
def contains (s sub : QString) : Bool := indexOf s sub 0 != -1

/-- `QString::mid(position)`: the text from `position` on; a negative position
counts as 0, one past the end gives the empty string. -/
def mid (s : QString) (pos : Int) : QString := s.drop pos.toNat

/-- `QString::mid(position, n)` for `n ≥ 0` and a non-negative position. -/
def midN (s : QString) (pos : Int) (n : Nat) : QString := (s.drop pos.toNat).take n

/-- Puts a character in front of the first piece of a split. -/
def consHead (c : Char) : List QString → List QString
  | [] => [[c]]
  | p :: ps => (c :: p) :: ps

/-- Scanner behind `QString::split(sep)` for a non-empty separator: `skip` is
the number of separator characters still to be passed over. -/
def splitGo (sep : QString) : Nat → QString → List QString
  | _, [] => [[]]
  | k + 1, _ :: cs => splitGo sep k cs
  | 0, c :: cs =>
    if sep.isPrefixOf (c :: cs) then [] :: splitGo sep (sep.length - 1) cs
    else consHead c (splitGo sep 0 cs)

/-- `QString::split(sep)` with `Qt::KeepEmptyParts` (the default), for a
non-empty separator: the pieces between the non-overlapping occurrences of
`sep`, found from left to right. -/
def split (s sep : QString) : List QString := splitGo sep 0 s

/-- `QString::split(sep, Qt::SkipEmptyParts)`. -/
def splitSkipEmpty (s sep : QString) : List QString := (split s sep).filter (fun p => !p.isEmpty)

/-- Scanner behind `QString::remove(sub)`. -/
def removeGo (sub : QString) : Nat → QString → QString
  | _, [] => []
  | k + 1, _ :: cs => removeGo sub k cs
  | 0, c :: cs =>
    if sub.isPrefixOf (c :: cs) then removeGo sub (sub.length - 1) cs
    else c :: removeGo sub 0 cs

/-- `QString::remove(sub)`: every occurrence of `sub` deleted (left to right,
non-overlapping); nothing happens for an empty `sub`. -/
def remove (s sub : QString) : QString := if sub.isEmpty then s else removeGo sub 0 s

/-- `QString::remove(position, n)`: `n` characters deleted from `position` on. -/
def removeAt (s : QString) (pos n : Nat) : QString := s.take pos ++ s.drop (pos + n)

/-- `QString::insert(position, str)` for a position inside the string. -/
def insertAt (s : QString) (pos : Nat) (str : QString) : QString := s.take pos ++ str ++ s.drop pos

/-- `QList::constFirst` of a split (which is never empty). -/
def constFirst (l : List QString) : QString := l.headD []

/-- `QList::constLast` of a split (which is never empty). -/
def constLast (l : List QString) : QString := l.getLastD []

/-! ## TextHelper -/

/-- Modelled from the spec: `TextHelper::smartToUpper` for one character
(utils/helpers/text_helper.cpp is not among the sources).  The spec only says
that names are upper-cased; the model upper-cases the ASCII letters and leaves
every other character alone, so the length of a text never changes.  It is
upper-casing on ASCII text only: a result that depends on the upper case of a
letter outside ASCII is stated for ASCII text, or for text whose letters
outside ASCII are already in upper case. -/
def smartToUpperChar (c : Char) : Char := c.toUpper

/-- Modelled from the spec: `TextHelper::smartToUpper`, the text upper-cased
character by character. -/
def smartToUpper (s : QString) : QString := s.map smartToUpperChar

/-! ## NovelCharacterParser -/

/-- Scanner for `QString::remove(s_rxState)` with `s_rxState = "[(](.*)"`: a
match starts at a `(` and runs to the end of the line (`.` does not match the
line feed); matching then goes on after the line feed.  `inMatch` says that the
scanner is inside a match. -/
def removeRxStateGo : Bool → QString → QString
  | _, [] => []
  | false, c :: cs => if c = '(' then removeRxStateGo true cs else c :: removeRxStateGo false cs
  | true, c :: cs => if c = '\n' then c :: removeRxStateGo false cs else removeRxStateGo true cs

/-- `QString::remove(s_rxState)`. -/
def removeRxState (s : QString) : QString := removeRxStateGo false s

/-- `s_rxState.match(text)`: `captured(0)` of the first match, from the first
`(` to the end of its line, or `none` when the text has no `(`. -/
def matchRxState (s : QString) : Option QString :=
  match s.dropWhile (fun c => c != '(') with
  | [] => none
  | m => some (m.takeWhile (fun c => c != '\n'))

namespace NovelCharacterParser

/-- `NovelCharacterParser::name`. -/
def name (text : QString) : QString :=
  smartToUpper (simplified (removeRxState text))

/-- `NovelCharacterParser::extension`. -/
def extension (text : QString) : QString :=
  let state : QString :=
    match matchRxState text with
    | some m => remove (remove m (qs "(")) (qs ")")
    | none => []
  simplified (smartToUpper state)

end NovelCharacterParser

/-! ## NovelSceneHeadingParser -/

namespace NovelSceneHeadingParser

/-- `NovelSceneHeadingParser::sceneIntro`. -/
def sceneIntro (text : QString) : QString :=
  if !contains text (qs ". ") then smartToUpper text
  else
    let placeName := constFirst (split text (qs ". "))
    simplified (smartToUpper placeName) ++ qs "."

/-- `NovelSceneHeadingParser::location`. -/
def location (text : QString) (force : Bool) : QString :=
  let locationName : QString :=
    if (split text (qs ". ")).length > 1 then
      let locationName := mid text (indexOf text (qs ". ") 0 + 2)
      if !force then
        let locationParts := split locationName (qs " -- ")
        let locationName :=
          if locationParts.length > 1 then
            remove locationName (qs " -- " ++ constLast locationParts)
          else
            let suffix := constLast (split locationName (qs " - "))
            remove locationName (qs " - " ++ suffix)
        simplified locationName
      else locationName
    else []
  simplified (smartToUpper locationName)

/-- `NovelSceneHeadingParser::sceneTime`. -/
def sceneTime (text : QString) : QString :=
  let timeName : QString :=
    if (split text (qs " -- ")).length ≥ 2 then
      simplified (constLast (split text (qs " -- ")))
    else if (split text (qs " - ")).length ≥ 2 then
      simplified (constLast (split text (qs " - ")))
    else []
  simplified (smartToUpper timeName)

end NovelSceneHeadingParser

/-! ## NovelSceneCharactersParser -/

namespace NovelSceneCharactersParser

/-- `NovelSceneCharactersParser::characters`. -/
def characters (text : QString) : List QString :=
  let characters := simplified text
  let charactersList := splitSkipEmpty characters (qs ",")
  charactersList.map (fun entry => NovelCharacterParser.name (simplified entry))

end NovelSceneCharactersParser


/-! ## Phrases: words joined by single spaces -/

/-- Scanner for `isPhrase`; `gap` says that the previous character was a space
(or that nothing has been read yet). -/
def phraseGo : Bool → QString → Bool
  | gap, [] => !gap
  | gap, c :: cs =>
    if c = ' ' then !gap && phraseGo true cs else c.isAlphanum && phraseGo false cs

/-- A non-empty run of letters and digits, or several such words joined by
single spaces. -/
def isPhrase (s : QString) : Bool := phraseGo true s

/-! ## The item tree -/

/-- Modelled from the spec: the paragraph types the spec and the code name
(`TextParagraphType` is declared in business_layer/templates/text_template.h,
which is not among the sources); `Other` stands for every further type. -/
inductive TextParagraphType where
  | Undefined
  | UnformattedText
  | SceneHeading
  | SceneCharacters
  | BeatHeading
  | Action
  | Character
  | Parenthetical
  | Dialogue
  | Lyrics
  | Text
  | Other
  deriving DecidableEq, Repr

/-- Modelled from the spec: `TextGroupType`, the kind of a group item (scene,
beat, chapter); its declaration is not among the sources. -/
inductive TextGroupType where
  | Undefined
  | Scene
  | Beat
  | Chapter
  deriving DecidableEq, Repr

/-- `TextModelGroupItem::Number`: the fields the code reads
(`value`, `followNumber`, `isCustom`, `isEatNumber`, `isLocked`) and the
decorated `text` that `prepareNumberText` fills. -/
structure SceneNumber where
  value : QString
  followNumber : QString
  isCustom : Bool
  isEatNumber : Bool
  isLocked : Bool
  text : QString
  deriving DecidableEq, Repr

/-- The data of a group item (`TextModelGroupItem`) apart from its children. -/
structure GroupData where
  groupType : TextGroupType
  number : Option SceneNumber
  color : Nat
  deriving DecidableEq, Repr

/-- The data of a text item (`TextModelTextItem`): paragraph type, text,
the correction flag and the dialogue number (`Number::value`). -/
structure TextData where
  paragraphType : TextParagraphType
  text : QString
  isCorrection : Bool
  number : Option Nat
  deriving DecidableEq, Repr

/-- `TextModelItem`: a folder, a group or a text paragraph; children in
document order. -/
inductive Item where
  | folder (children : List Item)
  | group (g : GroupData) (children : List Item)
  | text (t : TextData)
  deriving Repr

/-- `TextModelItem::childCount` / `childAt`: the children of an item. -/
def Item.children : Item → List Item
  | .folder cs => cs
  | .group _ cs => cs
  | .text _ => []

mutual
/-- The item reached from `item` by the rows of `path`. -/
def itemAt : Item → List Nat → Option Item
  | item, [] => some item
  | .folder cs, row :: path => itemAtRow cs row path
  | .group _ cs, row :: path => itemAtRow cs row path
  | .text _, _ :: _ => none
/-- The item reached from the child in row `row` of `children`. -/
def itemAtRow : List Item → Nat → List Nat → Option Item
  | [], _, _ => none
  | c :: _, 0, path => itemAt c path
  | _ :: cs, row + 1, path => itemAtRow cs row path
end

mutual
/-- The text paragraphs below an item in document order (depth-first,
pre-order). -/
def textLeaves : Item → List TextData
  | .folder cs => textLeavesList cs
  | .group _ cs => textLeavesList cs
  | .text t => [t]
/-- The text paragraphs below a list of siblings in document order. -/
def textLeavesList : List Item → List TextData
  | [] => []
  | c :: cs => textLeaves c ++ textLeavesList cs
end

mutual
/-- The scene groups below an item in document order (depth-first, pre-order:
a scene comes before the scenes nested in it). -/
def scenes : Item → List GroupData
  | .folder cs => scenesList cs
  | .group g cs =>
    if g.groupType = TextGroupType.Scene then g :: scenesList cs else scenesList cs
  | .text _ => []
/-- The scene groups below a list of siblings in document order. -/
def scenesList : List Item → List GroupData
  | [] => []
  | c :: cs => scenes c ++ scenesList cs
end

mutual
/-- No scene group contains another scene group. -/
def flatScenes : Item → Bool
  | .folder cs => flatScenesList cs
  | .group g cs =>
    if g.groupType = TextGroupType.Scene then (scenesList cs).isEmpty else flatScenesList cs
  | .text _ => true
/-- No scene group below these siblings contains another scene group. -/
def flatScenesList : List Item → Bool
  | [] => true
  | c :: cs => flatScenes c && flatScenesList cs
end

/-! ## NovelTextModel::updateNumbering -/

/-- The operations of `TextModelGroupItem` that `updateNumbering` calls and
whose bodies (text_model_group_item.cpp) are not among the sources.
`setNumber g children n follow` is the number the group has after
`setNumber(n, follow)` and the boolean it returns; `numberText template number`
is the decorated text `prepareNumberText(template)` stores. -/
structure NumberOps where
  setNumber : GroupData → List Item → Nat → QString → Option SceneNumber × Bool
  numberText : QString → SceneNumber → QString

/-- Modelled from the spec: `TextModelGroupItem::setNumber` as the spec
describes numbering: it stores the number it is passed (`value` the decimal
digits of the counter, `followNumber` the prefix), keeps the flags of the
number the group had, and reports success; `accepts` says for which groups. A
group that is not accepted keeps its number and `false` is returned. -/
def storeSetNumber (accepts : GroupData → List Item → Bool) (g : GroupData) (children : List Item)
    (n : Nat) (follow : QString) : Option SceneNumber × Bool :=
  if accepts g children then
    (some { value := (Nat.repr n).toList, followNumber := follow,
            isCustom := (g.number.map (fun x => x.isCustom)).getD false,
            isEatNumber := (g.number.map (fun x => x.isEatNumber)).getD true,
            isLocked := (g.number.map (fun x => x.isLocked)).getD false,
            text := (g.number.map (fun x => x.text)).getD [] }, true)
  else (g.number, false)

/-- Modelled from the spec: `prepareNumberText(template)` decorates the number
for display: the full number `followNumber + value` put in place of the `#` of
the template. -/
def storeNumberText (template : QString) (number : SceneNumber) : QString :=
  template.flatMap (fun c => if c = '#' then number.followNumber ++ number.value else [c])

/-- Modelled from the spec: group operations that store what they are passed. -/
def storeOps (accepts : GroupData → List Item → Bool) : NumberOps :=
  { setNumber := storeSetNumber accepts, numberText := storeNumberText }

/-- The group operations when `setNumber` succeeds for every group. -/
def storeAll : NumberOps := storeOps (fun _ _ => true)

/-- The variables of `updateNumbering`: `d->scenesCount` and the locals
`sceneNumber`, `dialogueNumber`, `lastLockedSceneFullNumber`. -/
structure NumberingState where
  scenesCount : Nat
  sceneNumber : Nat
  dialogueNumber : Nat
  lastLockedSceneFullNumber : QString
  deriving DecidableEq, Repr

/-- `groupItem->prepareNumberText("#.")` on a number that may be absent. -/
def prepareNumberText (ops : NumberOps) (template : QString) (number : Option SceneNumber) :
    Option SceneNumber :=
  number.map (fun n => { n with text := ops.numberText template n })

/-- The body of `case TextModelItemType::Group` of `updateChildNumbering` for a
scene, after the recursive call on its children: the locked, custom and
automatic branches (lines 633-668). -/
def numberScene (ops : NumberOps) (g : GroupData) (children : List Item) (st : NumberingState) :
    GroupData × NumberingState :=
  let st := { st with scenesCount := st.scenesCount + 1 }
  let isLocked := (g.number.map (fun n => n.isLocked)).getD false
  let isCustom := (g.number.map (fun n => n.isCustom)).getD false
  let isEatNumber := (g.number.map (fun n => n.isEatNumber)).getD false
  let (g, st) : GroupData × NumberingState :=
    if isLocked then
      (g, { st with
              lastLockedSceneFullNumber :=
                (g.number.map (fun n => n.followNumber ++ n.value)).getD []
              sceneNumber := 0 })
    else if isCustom then
      if isEatNumber then (g, { st with sceneNumber := st.sceneNumber + 1 }) else (g, st)
    else
      let r := ops.setNumber g children st.sceneNumber st.lastLockedSceneFullNumber
      if r.2 then ({ g with number := r.1 }, { st with sceneNumber := st.sceneNumber + 1 })
      else ({ g with number := r.1 }, st)
  ({ g with number := prepareNumberText ops (qs "#.") g.number }, st)

/-- The body of `case TextModelItemType::Text` of `updateChildNumbering`
(lines 673-682); `TextModelTextItem::setNumber` stores the dialogue number. -/
def numberParagraph (t : TextData) (st : NumberingState) : TextData × NumberingState :=
  if t.paragraphType = TextParagraphType.Character ∧ t.isCorrection = false then
    ({ t with number := some st.dialogueNumber },
     { st with dialogueNumber := st.dialogueNumber + 1 })
  else (t, st)

mutual
/-- One child of the loop of `updateChildNumbering` (lines 622-686). -/
def updateItemNumbering (ops : NumberOps) : Item → NumberingState → Item × NumberingState
  | .folder cs, st =>
    let r := updateChildNumbering ops cs st
    (.folder r.1, r.2)
  | .group g cs, st =>
    let r := updateChildNumbering ops cs st
    if g.groupType = TextGroupType.Scene then
      let s := numberScene ops g r.1 r.2
      (.group s.1 r.1, s.2)
    else (.group g r.1, r.2)
  | .text t, st =>
    let r := numberParagraph t st
    (.text r.1, r.2)
/-- The lambda `updateChildNumbering` of `updateNumbering`: the loop over the
children of an item, in order. -/
def updateChildNumbering (ops : NumberOps) : List Item → NumberingState → List Item × NumberingState
  | [], st => ([], st)
  | c :: cs, st =>
    let r := updateItemNumbering ops c st
    let rs := updateChildNumbering ops cs r.2
    (r.1 :: rs.1, rs.2)
end

/-- The values `updateNumbering` gives its variables before the traversal. -/
def initialNumbering : NumberingState :=
  { scenesCount := 0, sceneNumber := 1, dialogueNumber := 1, lastLockedSceneFullNumber := [] }

/-- `NovelTextModel::updateNumbering`: the children of the root after the pass
and the final values of the variables (`scenesCount` among them). -/
def updateNumbering (ops : NumberOps) (root : Item) : Item × NumberingState :=
  let r := updateChildNumbering ops root.children initialNumbering
  (match root with
    | .folder _ => .folder r.1
    | .group g _ => .group g r.1
    | .text t => .text t, r.2)

/-- The number a scene shows: `followNumber + value` (as in
novel_text_view.cpp, line 512). -/
def fullNumber (g : GroupData) : QString :=
  (g.number.map (fun n => n.followNumber ++ n.value)).getD []

/-- A scene whose number `updateNumbering` assigns: neither locked nor custom. -/
def isAutoScene (g : GroupData) : Bool :=
  !((g.number.map (fun n => n.isLocked)).getD false)
    && !((g.number.map (fun n => n.isCustom)).getD false)

/-- A scene whose number is locked. -/
def isLockedScene (g : GroupData) : Bool := (g.number.map (fun n => n.isLocked)).getD false

/-- A scene with a custom number flagged `isEatNumber` (and not locked). -/
def isEatScene (g : GroupData) : Bool :=
  !((g.number.map (fun n => n.isLocked)).getD false)
    && (g.number.map (fun n => n.isCustom)).getD false
    && (g.number.map (fun n => n.isEatNumber)).getD false

/-! ## NovelTextModel::updateCharacterName -/

/-- `QString::at(i)`; the code only reads positions inside the string. -/
def charAt (s : QString) (i : Int) : Char := s.getD i.toNat ' '

/-- Case folding of one character, as far as it can meet an ASCII character:
an ASCII letter folds with its other case, KELVIN SIGN (U+212A) folds with K
and LATIN SMALL LETTER LONG S (U+017F) with S; these two are the only
characters outside ASCII that the Unicode case folding joins with an ASCII
letter.  Every other character outside ASCII is left alone. -/
def foldCase (c : Char) : Char :=
  if c.toNat = 0x212A then 'K' else if c.toNat = 0x017F then 'S' else c.toUpper

/-- Case-insensitive equality of two characters (`Qt::CaseInsensitive`, and the
`CaseInsensitiveOption` of the matcher, which works on Unicode text).  The
comparison is the one the code makes whenever one of the two characters is
ASCII; two different characters outside ASCII are taken as unequal. -/
def eqIgnoreCase (a b : Char) : Bool := foldCase a == foldCase b

/-- Does `pat` start `s`, letter case ignored. -/
def isPrefixIgnoreCase : QString → QString → Bool
  | [], _ => true
  | _ :: _, [] => false
  | p :: ps, c :: cs => eqIgnoreCase p c && isPrefixIgnoreCase ps cs

/-- `QString::contains(sub, Qt::CaseInsensitive)`. -/
def containsIgnoreCase : QString → QString → Bool
  | [], sub => sub.isEmpty
  | c :: cs, sub => isPrefixIgnoreCase sub (c :: cs) || containsIgnoreCase cs sub

/-- A word character of the regular-expression engine, `\w`: an ASCII letter, a
digit or the underscore.  The pattern is built without
`UseUnicodePropertiesOption`, so no character outside ASCII is a word
character. -/
def isWordChar (c : Char) : Bool := c.isAlphanum || c == '_'

/-- The assertion `\b` between the character `before` and the character
`after` (`none` at an end of the text). -/
def wordBoundary (before after : Option Char) : Bool :=
  (before.map isWordChar).getD false != (after.map isWordChar).getD false

/-- Does the matcher `\b(name)\b` match at the start of `rest`, the character
before it being `before`.  The code puts the name into the pattern as it is;
here the name is taken literally, which is what the pattern means for a name
of ASCII letters, digits and spaces (no character with a meaning of its own in
a pattern); the model says nothing true about other names. -/
def nameMatchesHere (name : QString) (before : Option Char) (rest : QString) : Bool :=
  wordBoundary before rest.head?
    && isPrefixIgnoreCase name rest
    && wordBoundary (if name.isEmpty then before else (rest.take name.length).getLast?)
        (rest.drop name.length).head?

/-- Scanner of the matcher: the first position at or after `pos` where
`\b(name)\b` matches. -/
def nameMatchGo (name : QString) : Option Char → QString → Nat → Option Nat
  | before, [], pos => if nameMatchesHere name before [] then some pos else none
  | before, c :: cs, pos =>
    if nameMatchesHere name before (c :: cs) then some pos
    else nameMatchGo name (some c) cs (pos + 1)

/-- `nameMatcher.match(text, offset)`: `capturedStart()` of the first match at
or after `offset`, or `none` when there is no match. -/
def nameMatch (name text : QString) (offset : Nat) : Option Nat :=
  if text.length < offset then none
  else nameMatchGo name (if offset = 0 then none else text.get? (offset - 1))
    (text.drop offset) offset

/-- Scanner for `toSentenceCase`; `wordStart` says that the next letter opens a
word. -/
def toSentenceCaseGo : Bool → QString → QString
  | _, [] => []
  | wordStart, c :: cs =>
    (if wordStart then c.toUpper else c.toLower) :: toSentenceCaseGo (isSpace c) cs

/-- Modelled from the spec: `TextHelper::toSentenceCase(text, capitalizeEveryWord)`
with `capitalizeEveryWord = true` (text_helper.cpp is not among the sources):
title case, the first letter of every word in upper case and the others in
lower case. -/
def toSentenceCase (s : QString) : QString := toSentenceCaseGo true s

/-- The `while (nameIndex != -1)` loop over a SceneCharacters paragraph
(lines 254-275).  `fuel` bounds the number of iterations; `none` means that
the loop is still running when the fuel is spent. -/
def sceneCharactersLoop (oldName newName : QString) :
    Nat → QString → Int → Option QString
  | 0, _, _ => none
  | fuel + 1, text, nameIndex =>
    if nameIndex = -1 then some text
    else
      let nameEndIndex := nameIndex + oldName.length
      let atLeftAllOk := nameIndex == 0 || charAt text (nameIndex - 1) == ','
        || (decide (nameIndex > 2) && midN text (nameIndex - 2) 2 == qs ", ")
      let atRightAllOk := nameEndIndex == text.length || charAt text nameEndIndex == ','
        || (decide ((text.length : Int) > nameEndIndex + 1) && midN text nameEndIndex 2 == qs " ,")
      if !atLeftAllOk || !atRightAllOk then
        sceneCharactersLoop oldName newName fuel text
          (indexOf (smartToUpper text) oldName nameIndex.toNat)
      else
        some (insertAt (removeAt text nameIndex.toNat oldName.length) nameIndex.toNat newName)

/-- The `while (match.hasMatch())` loop over any other paragraph (lines
287-298); `found` is the current match.  `none` means that the loop is still
running when the fuel is spent. -/
def freeTextLoop (oldName newName : QString) :
    Nat → QString → Option Nat → Option QString
  | _, text, none => some text
  | 0, _, some _ => none
  | fuel + 1, text, some start =>
    let capturedName := midN text start oldName.length
    let text1 := removeAt text start oldName.length
    let replacement :=
      if capturedName = oldName then smartToUpper newName else toSentenceCase newName
    let text2 := insertAt text1 start replacement
    freeTextLoop oldName newName fuel text2 (nameMatch oldName text2 (start + newName.length))

/-- The body of `case TextModelItemType::Text` of `updateCharacterBlock`
(lines 249-302): the new text of a paragraph of type `paragraphType`;
`oldName` is already `smartToUpper(_oldName)`. -/
def updateCharacterText (fuel : Nat) (oldName newName : QString)
    (paragraphType : TextParagraphType) (text : QString) : Option QString :=
  if paragraphType = TextParagraphType.SceneCharacters
      ∧ oldName ∈ NovelSceneCharactersParser.characters text then
    sceneCharactersLoop oldName newName fuel text (indexOf (smartToUpper text) oldName 0)
  else if paragraphType = TextParagraphType.Character
      ∧ NovelCharacterParser.name text = oldName then
    some (newName ++ removeAt text 0 oldName.length)
  else if containsIgnoreCase text oldName then
    freeTextLoop oldName newName fuel text (nameMatch oldName text 0)
  else some text

mutual
/-- One child of the loop of `updateCharacterBlock` (lines 240-308). -/
def updateCharacterItem (fuel : Nat) (oldName newName : QString) : Item → Option Item
  | .folder cs => (updateCharacterBlock fuel oldName newName cs).map Item.folder
  | .group g cs => (updateCharacterBlock fuel oldName newName cs).map (Item.group g)
  | .text t =>
    (updateCharacterText fuel oldName newName t.paragraphType t.text).map
      (fun s => Item.text { t with text := s })
/-- The lambda `updateCharacterBlock`: the loop over the children of an item. -/
def updateCharacterBlock (fuel : Nat) (oldName newName : QString) : List Item → Option (List Item)
  | [] => some []
  | c :: cs =>
    match updateCharacterItem fuel oldName newName c with
    | none => none
    | some c1 =>
      match updateCharacterBlock fuel oldName newName cs with
      | none => none
      | some cs1 => some (c1 :: cs1)
end

/-- `NovelTextModel::updateCharacterName(_oldName, _newName)` on the children
of the root; every loop may run `fuel` times, `none` means that one of them
did not finish. -/
def updateCharacterName (fuel : Nat) (oldName newName : QString) (rootChildren : List Item) :
    Option (List Item) :=
  updateCharacterBlock fuel (smartToUpper oldName) newName rootChildren

/-! ## NovelTextModel::characterDialogues -/

/-- A `QModelIndex`: the rows leading from the root to the item. -/
abbrev ModelIndex := List Nat

/-- The indexes `index(childRow, 0, parent)` of the children of `parent`, with
the items they stand for (`itemForIndex`), from row `row` on. -/
def childIndexes (parent : ModelIndex) : List Item → Nat → List (ModelIndex × Item)
  | [], _ => []
  | c :: cs, row => (parent ++ [row], c) :: childIndexes parent cs (row + 1)

mutual
/-- The number of items in a subtree. -/
def treeSize : Item → Nat
  | .folder cs => 1 + forestSize cs
  | .group _ cs => 1 + forestSize cs
  | .text _ => 1
/-- The number of items in the subtrees of a list of siblings. -/
def forestSize : List Item → Nat
  | [] => 0
  | c :: cs => treeSize c + forestSize cs
end

/-- The update of `lastCharacter` and `dialoguesIndexes` for one text item
(the `switch` of lines 330-355). -/
def dialogueStep (name : QString) (index : ModelIndex) (t : TextData)
    (lastCharacter : QString) (found : List ModelIndex) : QString × List ModelIndex :=
  match t.paragraphType with
  | .Character => (NovelCharacterParser.name t.text, found)
  | .Parenthetical => (lastCharacter, found)
  | .Dialogue => (lastCharacter, if lastCharacter = name then found ++ [index] else found)
  | .Lyrics => (lastCharacter, if lastCharacter = name then found ++ [index] else found)
  | _ => ([], found)

/-- The `while (!modelIndexes.isEmpty())` loop of `characterDialogues`
(lines 325-361): the first index is taken from the list, its item handled, and
the indexes of its children are appended at the end of the list.  `none` means
that the loop is still running when the fuel is spent. -/
def characterDialoguesLoop (name : QString) :
    Nat → List (ModelIndex × Item) → QString → List ModelIndex → Option (List ModelIndex)
  | _, [], _, found => some found
  | 0, _ :: _, _, _ => none
  | fuel + 1, (index, item) :: modelIndexes, lastCharacter, found =>
    let r : QString × List ModelIndex :=
      match item with
      | .text t => dialogueStep name index t lastCharacter found
      | _ => (lastCharacter, found)
    characterDialoguesLoop name fuel (modelIndexes ++ childIndexes index item.children 0) r.1 r.2

/-- `NovelTextModel::characterDialogues(_name)` on the children of the root.
The loop takes one index per iteration and every item enters the list once,
so the number of items is fuel enough. -/
def characterDialogues (rootChildren : List Item) (name : QString) : Option (List ModelIndex) :=
  characterDialoguesLoop name (forestSize rootChildren) (childIndexes [] rootChildren 0) [] []

/-! ## NovelTextModel::findCharactersFromText -/

/-- The characters one text item adds to the set (lines 381-390). -/
def textCharacters (t : TextData) : List QString :=
  if t.paragraphType = TextParagraphType.SceneCharacters then
    NovelSceneCharactersParser.characters t.text
  else if t.paragraphType = TextParagraphType.Character then
    [NovelCharacterParser.name t.text]
  else []

mutual
/-- One child of the loop of `findCharacters` (lines 372-396); `characters` is
the set collected so far. -/
def findCharactersItem : Item → Finset QString → Finset QString
  | .folder cs, characters => findCharacters cs characters
  | .group _ cs, characters => findCharacters cs characters
  | .text t, characters => (textCharacters t).foldl (fun acc c => insert c acc) characters
/-- The lambda `findCharacters`: the loop over the children of an item. -/
def findCharacters : List Item → Finset QString → Finset QString
  | [], characters => characters
  | c :: cs, characters => findCharacters cs (findCharactersItem c characters)
end

/-- `NovelTextModel::findCharactersFromText` on the children of the root. -/
def findCharactersFromText (rootChildren : List Item) : Finset QString :=
  findCharacters rootChildren ∅

/-! ## Helper notions of the proofs -/

/-- Two scene numbers that agree in everything but the decorated `text`. -/
def SameNumber (a b : SceneNumber) : Prop :=
  a.value = b.value ∧ a.followNumber = b.followNumber ∧ a.isCustom = b.isCustom
    ∧ a.isEatNumber = b.isEatNumber ∧ a.isLocked = b.isLocked

/-- No occurrence of `sep` starts inside `a` when `a` is followed by `rest`. -/
def NoStart (sep : QString) : QString → QString → Prop
  | [], _ => True
  | c :: cs, rest => sep.isPrefixOf (c :: (cs ++ rest)) = false ∧ NoStart sep cs rest

/-- The effect of `numberScene` (with `storeAll`) on the scene's data and on
the two variables `sceneNumber` and `lastLockedSceneFullNumber`. -/
def sceneStep (g : GroupData) (n : Nat) (f : QString) : GroupData × Nat × QString :=
  let r := numberScene storeAll g []
    { scenesCount := 0, sceneNumber := n, dialogueNumber := 0, lastLockedSceneFullNumber := f }
  (r.1, r.2.sceneNumber, r.2.lastLockedSceneFullNumber)

/-- The scenes of a list numbered one after the other by `sceneStep`. -/
def numberFlat : List GroupData → Nat → QString → List GroupData × Nat × QString
  | [], n, f => ([], n, f)
  | g :: gs, n, f =>
    let r := sceneStep g n f
    let rs := numberFlat gs r.2.1 r.2.2
    (r.1 :: rs.1, rs.2)

/-- How far a stretch of scenes advances the scene counter: one for every
automatically numbered scene and one for every custom scene flagged
`isEatNumber`. -/
def counterAdvance (l : List GroupData) : Nat :=
  (l.filter isAutoScene).length + (l.filter isEatScene).length

/-- The data of an automatically numbered scene after `setNumber(n, follow)`
and `prepareNumberText("#.")`; `children` are its children after the pass. -/
def autoNumbered (ops : NumberOps) (g : GroupData) (children : List Item) (n : Nat)
    (follow : QString) : GroupData :=
  { g with number := prepareNumberText ops (qs "#.") (ops.setNumber g children n follow).1 }

/-- An example scene: a locked scene numbered 5. -/
def lockedFive : GroupData :=
  { groupType := TextGroupType.Scene,
    number := some { value := qs "5", followNumber := [], isCustom := false,
                     isEatNumber := true, isLocked := true, text := [] },
    color := 0 }

/-- An example scene without a number yet (numbered automatically). -/
def plainScene : GroupData := { groupType := TextGroupType.Scene, number := none, color := 0 }

/-- An example scene with the custom number 7A that eats a number. -/
def customScene : GroupData :=
  { groupType := TextGroupType.Scene,
    number := some { value := qs "7A", followNumber := [], isCustom := true,
                     isEatNumber := true, isLocked := false, text := [] },
    color := 0 }

/-- An example paragraph of the given type and text. -/
def paragraph (paragraphType : TextParagraphType) (text : String) : Item :=
  .text { paragraphType := paragraphType, text := qs text, isCorrection := false, number := none }

/-! ## Document order, as the spec words the dialogue scan -/

mutual
/-- Follows the spec's words for `characterDialogues`: the scan over the text
paragraphs of an item in depth-first pre-order document order,
with the state `lastCharacter` and the indexes found so far. -/
def documentOrderItem (name : QString) : ModelIndex → Item → QString × List ModelIndex →
    QString × List ModelIndex
  | index, .folder cs, state => documentOrderScan name index cs 0 state
  | index, .group _ cs, state => documentOrderScan name index cs 0 state
  | index, .text t, state => dialogueStep name index t state.1 state.2
/-- Follows the spec's words: the scan over the children of `parent` from row
`row` on, each child with everything below it before its next sibling. -/
def documentOrderScan (name : QString) : ModelIndex → List Item → Nat →
    QString × List ModelIndex → QString × List ModelIndex
  | _, [], _, state => state
  | parent, c :: cs, row, state =>
    documentOrderScan name parent cs (row + 1)
      (documentOrderItem name (parent ++ [row]) c state)
end

/-- Follows the spec's words: the Dialogue and Lyrics paragraphs at which the
most recent Character cue in document order is `name`. -/
def documentOrderDialogues (rootChildren : List Item) (name : QString) : List ModelIndex :=
  (documentOrderScan name [] rootChildren 0 ([], [])).2

/-- An example group that is a beat. -/
def beatGroup : GroupData := { groupType := TextGroupType.Beat, number := none, color := 0 }

/-- An example scene item: the group `g` holding a scene heading and then
`inner`. -/
def sceneWith (g : GroupData) (inner : List Item) : Item :=
  .group g (paragraph TextParagraphType.SceneHeading "INT. HOUSE - DAY" :: inner)

/-! ## Normal form of white space -/

/-- Scanner for `isSimplified`; `gap` says that the previous character was a
space (or that nothing has been read yet). -/
def normGo : Bool → QString → Bool
  | gap, [] => !gap
  | gap, c :: cs =>
    if c = ' ' then !gap && normGo true cs else !isSpace c && normGo false cs

/-- A text without leading, trailing or repeated white space: it is empty, or
runs of non-space characters joined by single spaces (0x20). -/
def isSimplified (s : QString) : Bool := s.isEmpty || normGo true s

/-! ## Dialogue numbers -/

/-- A Character paragraph that is not a correction: the paragraphs
`updateNumbering` gives a dialogue number. -/
def isCue (t : TextData) : Bool :=
  decide (t.paragraphType = TextParagraphType.Character) && !t.isCorrection

/-- The text paragraphs of a list numbered one after the other, the dialogue
counter starting at `n`: the paragraphs after the pass and the counter. -/
def numberLeaves : List TextData → Nat → List TextData × Nat
  | [], n => ([], n)
  | t :: ts, n =>
    if isCue t then
      ({ t with number := some n } :: (numberLeaves ts (n + 1)).1, (numberLeaves ts (n + 1)).2)
    else (t :: (numberLeaves ts n).1, (numberLeaves ts n).2)

/-! ## NovelTextModel::findLocationsFromText -/

mutual
/-- One child of the loop of `findLocations` (lines 430-448); `locations` is
the set collected so far.  `location` is called with its default argument,
the non-forced mode. -/
def findLocationsItem : Item → Finset QString → Finset QString
  | .folder cs, locations => findLocations cs locations
  | .group _ cs, locations => findLocations cs locations
  | .text t, locations =>
    if t.paragraphType = TextParagraphType.SceneHeading then
      insert (NovelSceneHeadingParser.location t.text false) locations
    else locations
/-- The lambda `findLocations`: the loop over the children of an item. -/
def findLocations : List Item → Finset QString → Finset QString
  | [], locations => locations
  | c :: cs, locations => findLocations cs (findLocationsItem c locations)
end

/-- `NovelTextModel::findLocationsFromText` on the children of the root. -/
def findLocationsFromText (rootChildren : List Item) : Finset QString :=
  findLocations rootChildren ∅

mutual
/-- The item without the correction paragraphs below it. -/
def removeCorrectionsItem : Item → Item
  | .folder cs => .folder (removeCorrections cs)
  | .group g cs => .group g (removeCorrections cs)
  | .text t => .text t
/-- The siblings without the paragraphs flagged `isCorrection`, at any depth. -/
def removeCorrections : List Item → List Item
  | [] => []
  | .text t :: cs => if t.isCorrection then removeCorrections cs else .text t :: removeCorrections cs
  | .folder xs :: cs => removeCorrectionsItem (.folder xs) :: removeCorrections cs
  | .group g xs :: cs => removeCorrectionsItem (.group g xs) :: removeCorrections cs
end

/-- An example correction paragraph of the given type and text. -/
def correction (paragraphType : TextParagraphType) (text : String) : Item :=
  .text { paragraphType := paragraphType, text := qs text, isCorrection := true, number := none }

/-! ## NovelTextModel::itemsColors -/

/-- A `std::map<std::chrono::milliseconds, QColor>`: the entries in increasing
order of their keys (milliseconds), each colour as a number. -/
abbrev ColorMap := List (Nat × Nat)

/-- `std::map::emplace(key, value)`: the entry is inserted at its place in the
order of the keys, unless the map already has an entry with this key. -/
def mapEmplace : ColorMap → Nat → Nat → ColorMap
  | [], key, value => [(key, value)]
  | e :: m, key, value =>
    if key < e.1 then (key, value) :: e :: m
    else if key = e.1 then e :: m
    else e :: mapEmplace m key value

mutual
/-- One child of the loop of `collectChildColors` (lines 557-572); the state is
the pair of `lastItemDuration` and `colors`.  A folder is entered, a group adds
an entry and is not entered, and nothing assigns `lastItemDuration`. -/
def collectColorsItem : Item → Nat × ColorMap → Nat × ColorMap
  | .folder cs, state => collectChildColors cs state
  | .group g _, state => (state.1, mapEmplace state.2 state.1 g.color)
  | .text _, state => state
/-- The lambda `collectChildColors`: the loop over the children of an item. -/
def collectChildColors : List Item → Nat × ColorMap → Nat × ColorMap
  | [], state => state
  | c :: cs, state => collectChildColors cs (collectColorsItem c state)
end

/-- `NovelTextModel::itemsColors` on the children of the root:
`lastItemDuration` starts at 0 and `colors` empty. -/
def itemsColors (rootChildren : List Item) : ColorMap :=
  (collectChildColors rootChildren (0, [])).2

/-- An example scene without a number, with the given colour. -/
def colouredScene (color : Nat) : GroupData :=
  { groupType := TextGroupType.Scene, number := none, color := color }

/-- The maps `itemsColors` can build: empty, or one entry with the key 0. -/
def atMostKeyZero (m : ColorMap) : Prop := m = [] ∨ ∃ v, m = [(0, v)]

/-! ## Scenes directly under the root or under folders -/

mutual
/-- Every scene sits directly under the root or under a folder: no group
holds a scene. -/
def scenesOnTop : Item → Bool
  | .folder cs => scenesOnTopList cs
  | .group _ cs => (scenesList cs).isEmpty
  | .text _ => true
/-- Every scene below these siblings is one of them or sits directly under a
folder. -/
def scenesOnTopList : List Item → Bool
  | [] => true
  | c :: cs => scenesOnTop c && scenesOnTopList cs
end

/-- The variables of `updateNumbering` with the scene counter `n` and the
remembered locked number `follow` (the other two at 0). -/
def sceneVars (n : Nat) (follow : QString) : NumberingState :=
  { scenesCount := 0, sceneNumber := n, dialogueNumber := 0,
    lastLockedSceneFullNumber := follow }

/-- The scenes of a list numbered one after the other by `numberScene`, each
with its children after the pass: the data of the scenes afterwards, the scene
counter and the remembered locked number. -/
def zipNumber (ops : NumberOps) :
    List GroupData → List (List Item) → Nat → QString → List GroupData × Nat × QString
  | g :: gs, c :: cs, n, f =>
    ((numberScene ops g c (sceneVars n f)).1 ::
        (zipNumber ops gs cs (numberScene ops g c (sceneVars n f)).2.sceneNumber
          (numberScene ops g c (sceneVars n f)).2.lastLockedSceneFullNumber).1,
      (zipNumber ops gs cs (numberScene ops g c (sceneVars n f)).2.sceneNumber
          (numberScene ops g c (sceneVars n f)).2.lastLockedSceneFullNumber).2)
  | [], _, n, f => ([], n, f)
  | _ :: _, [], n, f => ([], n, f)

/-- How far a stretch of scenes advances the scene counter when `setNumber`
succeeds exactly for the groups that `succeeds` accepts: one for every
automatic scene with a successful `setNumber` and one for every custom scene
flagged `isEatNumber`. -/
def successAdvance (succeeds : GroupData → Bool) (l : List GroupData) : Nat :=
  (l.filter (fun g => isAutoScene g && succeeds g)).length + (l.filter isEatScene).length

/-- An example oracle for `setNumber`: it fails for the groups coloured 9. -/
def refusesNine (g : GroupData) : Bool := g.color != 9

/-- An example custom scene 8B that does not eat a number. -/
def customKeeps : GroupData :=
  { groupType := TextGroupType.Scene,
    number := some { value := qs "8B", followNumber := [], isCustom := true,
                     isEatNumber := false, isLocked := false, text := [] },
    color := 0 }

/-! ## Lists of character names -/

/-- A name as it may stand in a SceneCharacters list: it holds a character that
is not white space, and no comma, no `(` and no line feed. -/
def isListName (n : QString) : Bool :=
  n.any (fun c => !isSpace c) && n.all (fun c => c != ',' && c != '(' && c != '\n')

/-- The names joined by ", ": `n1 + ", " + ... + ", " + nk`. -/
def joinNames : List QString → QString
  | [] => []
  | [n] => n
  | n :: m :: rest => n ++ qs ", " ++ joinNames (m :: rest)

/-- The state of the scanner of `simplified` after it has read a text. -/
def simplifiedState : Bool → Bool → QString → Bool × Bool
  | started, pending, [] => (started, pending)
  | started, _, c :: cs =>
    if isSpace c then simplifiedState started started cs else simplifiedState true false cs

/-! ## The section functions of the parsers -/

namespace NovelCharacterParser

/-- The sections of a Character block, `NovelCharacterParser::Section` (the
enumerators the code names). -/
inductive Section where
  | SectionUndefined
  | SectionName
  | SectionExtension
  deriving DecidableEq, Repr

/-- `NovelCharacterParser::section` (lines 18-29). -/
def sectionOf (text : QString) : Section :=
  if (split text (qs "(")).length = 2 then Section.SectionExtension
  else Section.SectionName

end NovelCharacterParser

namespace NovelSceneHeadingParser

/-- The sections of a scene heading, `NovelSceneHeadingParser::Section` (the
enumerators the code names). -/
inductive Section where
  | SectionUndefined
  | SectionSceneIntro
  | SectionLocation
  | SectionSceneTime
  deriving DecidableEq, Repr

/-- `NovelSceneHeadingParser::section` (lines 60-76). -/
def sectionOf (text : QString) : Section :=
  if (split text (qs " -- ")).length ≥ 2 ∨ (split text (qs " - ")).length ≥ 2 then
    Section.SectionSceneTime
  else
    let splitDotCount := (split text (qs ". ")).length
    if splitDotCount = 1 then Section.SectionSceneIntro else Section.SectionLocation

end NovelSceneHeadingParser

/-! ## NovelTextModel::updateLocationName -/

/-- `QString::remove(position, n)` for a position that may be negative (Qt 5:
a negative position counts from the end, a position outside the string changes
nothing). -/
def removeAtInt (s : QString) (pos : Int) (n : Nat) : QString :=
  let p : Int := if pos < 0 then pos + s.length else pos
  if p < 0 ∨ (s.length : Int) ≤ p then s else removeAt s p.toNat n

/-- `QString::insert(position, str)` for a position that may be negative (Qt 5:
nothing is inserted at a negative position). -/
def insertAtInt (s : QString) (pos : Int) (str : QString) : QString :=
  if pos < 0 then s else insertAt s pos.toNat str

/-- The body of `case TextModelItemType::Text` of `updateLocationBlock` (lines
471-482): the new text of a paragraph of type `paragraphType`; `oldName` is
already `smartToUpper(_oldName)`, `location` is called in its default,
non-forced mode. -/
def updateLocationText (oldName newName : QString) (paragraphType : TextParagraphType)
    (text : QString) : QString :=
  if paragraphType = TextParagraphType.SceneHeading
      ∧ NovelSceneHeadingParser.location text false = oldName then
    let nameIndex := indexOf (smartToUpper text) oldName 0
    let text1 := removeAtInt text nameIndex oldName.length
    insertAtInt text1 nameIndex newName
  else text

mutual
/-- One child of the loop of `updateLocationBlock` (lines 461-488). -/
def updateLocationItem (oldName newName : QString) : Item → Item
  | .folder cs => .folder (updateLocationBlock oldName newName cs)
  | .group g cs => .group g (updateLocationBlock oldName newName cs)
  | .text t => .text { t with text := updateLocationText oldName newName t.paragraphType t.text }
/-- The lambda `updateLocationBlock`: the loop over the children of an item. -/
def updateLocationBlock (oldName newName : QString) : List Item → List Item
  | [] => []
  | c :: cs => updateLocationItem oldName newName c :: updateLocationBlock oldName newName cs
end

/-- `NovelTextModel::updateLocationName(_oldName, _newName)` on the children of
the root. -/
def updateLocationName (oldName newName : QString) (rootChildren : List Item) : List Item :=
  updateLocationBlock (smartToUpper oldName) newName rootChildren

/-- An example scene heading: "EXT. EX -- DAY", whose location EX also stands
at the start of the intro. -/
def headingEx : Item := paragraph TextParagraphType.SceneHeading "EXT. EX -- DAY"

namespace ProjectsModel

end ProjectsModel

/-- Follows the spec's words: a whole-word, case-insensitive occurrence of
`name` at the start of `rest`: the text starts with the name (letter case
ignored), the character before it is not a word character and neither is the
character after it. -/
def wholeWordHere (name : QString) (before : Option Char) (rest : QString) : Bool :=
  isPrefixIgnoreCase name rest
    && !((before.map isWordChar).getD false)
    && !(((rest.drop name.length).head?.map isWordChar).getD false)

/-- Follows the spec's words: what an occurrence becomes: `smartToUpper(new)`
when it is spelled exactly as `smartToUpper(old)`, `new` in title case in any
other spelling. -/
def recased (oldName newName occurrence : QString) : QString :=
  if occurrence = smartToUpper oldName then smartToUpper newName else toSentenceCase newName

/-- Follows the spec's words: the text read from left to right, every
whole-word occurrence of the old name replaced and every other character kept.
`skip` is the number of characters of a replaced occurrence still to be passed
over, `before` the character before the current one. -/
def replaceWholeWordsGo (oldName newName : QString) : Nat → Option Char → QString → QString
  | _, _, [] => []
  | skip + 1, _, c :: cs => replaceWholeWordsGo oldName newName skip (some c) cs
  | 0, before, c :: cs =>
    if wholeWordHere oldName before (c :: cs) then
      recased oldName newName ((c :: cs).take oldName.length)
        ++ replaceWholeWordsGo oldName newName (oldName.length - 1) (some c) cs
    else c :: replaceWholeWordsGo oldName newName 0 (some c) cs

/-- Follows the spec's words: the text with every whole-word, case-insensitive
occurrence of the old name replaced and nothing else changed. -/
def replaceWholeWords (oldName newName text : QString) : QString :=
  replaceWholeWordsGo oldName newName 0 none text

theorem char_eq_iff (c d : Char) : c = d ↔ c.toNat = d.toNat := by
  constructor
  · intro h; rw [h]
  · intro h
    apply Char.ext
    apply UInt32.toNat.inj
    exact h

theorem isLower_iff (c : Char) : c.isLower = true ↔ 97 ≤ c.toNat ∧ c.toNat ≤ 122 := by
  simp [Char.isLower, Char.toNat, UInt32.le_def, BitVec.le_def, UInt32.toNat]

theorem isUpper_iff (c : Char) : c.isUpper = true ↔ 65 ≤ c.toNat ∧ c.toNat ≤ 90 := by
  simp [Char.isUpper, Char.toNat, UInt32.le_def, BitVec.le_def, UInt32.toNat]

theorem isDigit_iff (c : Char) : c.isDigit = true ↔ 48 ≤ c.toNat ∧ c.toNat ≤ 57 := by
  simp [Char.isDigit, Char.toNat, UInt32.le_def, BitVec.le_def, UInt32.toNat]

theorem isAlphanum_iff (c : Char) : c.isAlphanum = true ↔
    (65 ≤ c.toNat ∧ c.toNat ≤ 90) ∨ (97 ≤ c.toNat ∧ c.toNat ≤ 122)
      ∨ (48 ≤ c.toNat ∧ c.toNat ≤ 57) := by
  simp [Char.isAlphanum, Char.isAlpha, isLower_iff, isUpper_iff, isDigit_iff, or_assoc]

theorem isSpace_iff (c : Char) : isSpace c = true ↔
    (c.toNat = 0x20 ∨ (0x09 ≤ c.toNat ∧ c.toNat ≤ 0x0D) ∨ c.toNat = 0x85 ∨ c.toNat = 0xA0
      ∨ c.toNat = 0x1680 ∨ (0x2000 ≤ c.toNat ∧ c.toNat ≤ 0x200A) ∨ c.toNat = 0x2028
      ∨ c.toNat = 0x2029 ∨ c.toNat = 0x202F ∨ c.toNat = 0x205F ∨ c.toNat = 0x3000) := by
  simp [isSpace, or_assoc]

theorem toNat_ofNat_small (n : Nat) (h : n < 128) : (Char.ofNat n).toNat = n := by
  interval_cases n <;> rfl

theorem toNat_upper (c : Char) :
    (smartToUpperChar c).toNat
      = if 97 ≤ c.toNat ∧ c.toNat ≤ 122 then c.toNat - 32 else c.toNat := by
  unfold smartToUpperChar Char.toUpper
  simp only [ge_iff_le]
  split
  · rename_i h; exact toNat_ofNat_small _ (by omega)
  · rfl

theorem isAlphanum_upper (c : Char) (h : c.isAlphanum = true) :
    (smartToUpperChar c).isAlphanum = true := by
  rw [isAlphanum_iff] at h ⊢
  rw [toNat_upper]
  split <;> omega

theorem isSpace_upper (c : Char) : isSpace (smartToUpperChar c) = isSpace c := by
  rw [Bool.eq_iff_iff, isSpace_iff, isSpace_iff, toNat_upper]
  split <;> omega

theorem upper_eq_space (c : Char) : smartToUpperChar c = ' ' ↔ c = ' ' := by
  rw [char_eq_iff, char_eq_iff, toNat_upper]
  have : (' ' : Char).toNat = 32 := rfl
  rw [this]
  split <;> omega

theorem isAlphanum_not_space (c : Char) (h : c.isAlphanum = true) : isSpace c = false := by
  rw [isAlphanum_iff] at h
  rw [Bool.eq_false_iff, Ne, isSpace_iff]
  omega

theorem isAlphanum_ne (c d : Char) (h : c.isAlphanum = true) (hd : d.isAlphanum = false) :
    c ≠ d := by
  intro e; rw [e, hd] at h; exact Bool.false_ne_true h

theorem space_isSpace : isSpace ' ' = true := by decide

/-! ## Phrases: words of letters and digits joined by single spaces -/

theorem phraseGo_chars (s : QString) : ∀ gap, phraseGo gap s = true →
    ∀ c ∈ s, c = ' ' ∨ c.isAlphanum = true := by
  induction s with
  | nil => intro gap _ c hc; cases hc
  | cons a s ih =>
    intro gap h c hc
    simp only [phraseGo] at h
    rcases List.mem_cons.1 hc with rfl | hc
    · by_cases ha : c = ' '
      · exact Or.inl ha
      · rw [if_neg ha] at h
        simp only [Bool.and_eq_true] at h
        exact Or.inr h.1
    · split at h
      · simp only [Bool.and_eq_true] at h
        exact ih _ h.2 c hc
      · simp only [Bool.and_eq_true] at h
        exact ih _ h.2 c hc

theorem phrase_not_mem (s : QString) (gap : Bool) (h : phraseGo gap s = true) (d : Char)
    (hd : d.isAlphanum = false) (hs : d ≠ ' ') : d ∉ s := by
  intro hm
  rcases phraseGo_chars s gap h d hm with e | e
  · exact hs e
  · rw [hd] at e; exact Bool.false_ne_true e

theorem phraseGo_upper (s : QString) : ∀ gap, phraseGo gap s = true →
    phraseGo gap (smartToUpper s) = true := by
  induction s with
  | nil => intro gap h; exact h
  | cons a s ih =>
    intro gap h
    simp only [smartToUpper, List.map_cons, phraseGo] at h ⊢
    by_cases ha : a = ' '
    · rw [if_pos ha] at h
      rw [if_pos ((upper_eq_space a).2 ha)]
      simp only [Bool.and_eq_true] at h ⊢
      exact ⟨h.1, ih _ h.2⟩
    · rw [if_neg ha] at h
      rw [if_neg (fun e => ha ((upper_eq_space a).1 e))]
      simp only [Bool.and_eq_true] at h ⊢
      exact ⟨isAlphanum_upper a h.1, ih _ h.2⟩

theorem isPhrase_upper (s : QString) (h : isPhrase s = true) :
    isPhrase (smartToUpper s) = true := phraseGo_upper s true h

theorem simplifiedGo_phrase (s : QString) :
    (phraseGo false s = true → simplifiedGo true false s = s)
    ∧ (phraseGo true s = true → simplifiedGo true true s = ' ' :: s) := by
  induction s with
  | nil => simp [phraseGo, simplifiedGo]
  | cons a s ih =>
    constructor
    · intro h
      simp only [phraseGo] at h
      by_cases ha : a = ' '
      · rw [if_pos ha] at h
        simp only [Bool.not_false, Bool.true_and] at h
        subst ha
        simp only [simplifiedGo, space_isSpace, if_true]
        exact ih.2 h
      · rw [if_neg ha] at h
        simp only [Bool.and_eq_true] at h
        simp only [simplifiedGo, isAlphanum_not_space a h.1, Bool.false_eq_true, if_false]
        rw [ih.1 h.2]
    · intro h
      simp only [phraseGo] at h
      by_cases ha : a = ' '
      · rw [if_pos ha] at h
        simp at h
      · rw [if_neg ha] at h
        simp only [Bool.and_eq_true] at h
        simp only [simplifiedGo, isAlphanum_not_space a h.1, Bool.false_eq_true, if_false,
          if_true]
        rw [ih.1 h.2]

theorem simplified_phrase (s : QString) (h : isPhrase s = true) : simplified s = s := by
  cases s with
  | nil => rfl
  | cons a s =>
    simp only [isPhrase, phraseGo] at h
    by_cases ha : a = ' '
    · rw [if_pos ha] at h
      simp at h
    · rw [if_neg ha] at h
      simp only [Bool.and_eq_true] at h
      simp only [simplified, simplifiedGo, isAlphanum_not_space a h.1, Bool.false_eq_true,
        if_false]
      rw [(simplifiedGo_phrase s).1 h.2]


/-! ## Facts about the string primitives -/

theorem noStart_of_first (k : Char) (t a rest : QString) (h : k ∉ a) :
    NoStart (k :: t) a rest := by
  induction a with
  | nil => trivial
  | cons c cs ih =>
    simp only [List.mem_cons, not_or] at h
    refine ⟨?_, ih h.2⟩
    simp only [List.isPrefixOf, Bool.and_eq_false_imp, beq_iff_eq]
    intro e
    exact absurd e h.1

theorem noStart_of_second (x k : Char) (t a rest : QString) (h : k ∉ a)
    (hr : rest.head? ≠ some k) : NoStart (x :: k :: t) a rest := by
  induction a with
  | nil => trivial
  | cons c cs ih =>
    simp only [List.mem_cons, not_or] at h
    refine ⟨?_, ih h.2⟩
    cases cs with
    | nil =>
      cases rest with
      | nil => simp [List.isPrefixOf]
      | cons r rs =>
        have : k ≠ r := fun e => hr (by simp [e])
        simp [List.isPrefixOf, this]
    | cons d ds =>
      simp only [List.mem_cons, not_or] at h
      simp only [List.cons_append, List.isPrefixOf, Bool.and_eq_false_imp, beq_iff_eq]
      intro _ e
      exact absurd e h.2.1

theorem noStart_append (sep a b rest : QString) (ha : NoStart sep a (b ++ rest))
    (hb : NoStart sep b rest) : NoStart sep (a ++ b) rest := by
  induction a with
  | nil => exact hb
  | cons c cs ih =>
    obtain ⟨h1, h2⟩ := ha
    refine ⟨?_, ih h2⟩
    simpa [List.append_assoc] using h1

theorem isPrefixOf_append_self (sep rest : QString) : sep.isPrefixOf (sep ++ rest) = true := by
  induction sep with
  | nil => simp [List.isPrefixOf]
  | cons c cs ih => simp [List.isPrefixOf, ih]

theorem splitGo_ne_nil (sep : QString) (s : QString) : ∀ k, splitGo sep k s ≠ [] := by
  induction s with
  | nil => intro k; simp [splitGo]
  | cons c cs ih =>
    intro k
    cases k with
    | zero =>
      simp only [splitGo]
      split
      · simp
      · cases h : splitGo sep 0 cs with
        | nil => exact absurd h (ih 0)
        | cons p ps => simp [consHead]
    | succ k => simp only [splitGo]; exact ih k

theorem splitGo_skip (sep : QString) (x rest : QString) :
    splitGo sep x.length (x ++ rest) = splitGo sep 0 rest := by
  induction x with
  | nil => rfl
  | cons c cs ih => simpa [splitGo] using ih

theorem splitGo_noStart (sep a rest : QString) (h : NoStart sep a rest) :
    splitGo sep 0 (a ++ rest)
      = (a ++ (splitGo sep 0 rest).headD []) :: (splitGo sep 0 rest).tail := by
  induction a with
  | nil =>
    cases hs : splitGo sep 0 rest with
    | nil => exact absurd hs (splitGo_ne_nil sep rest 0)
    | cons p ps => simp [hs]
  | cons c cs ih =>
    obtain ⟨h1, h2⟩ := h
    rw [List.cons_append]
    simp only [splitGo, h1, Bool.false_eq_true, if_false]
    rw [ih h2]
    simp [consHead]

theorem split_none (sep a : QString) (h : NoStart sep a []) : split a sep = [a] := by
  have := splitGo_noStart sep a [] h
  simpa [split, splitGo] using this

theorem split_at_sep (sep b : QString) (hne : sep ≠ []) :
    splitGo sep 0 (sep ++ b) = [] :: splitGo sep 0 b := by
  cases sep with
  | nil => exact absurd rfl hne
  | cons c cs =>
    have hp := isPrefixOf_append_self (c :: cs) b
    simp only [List.cons_append] at hp
    rw [List.cons_append]
    simp only [splitGo, hp, if_true, List.length_cons, Nat.add_sub_cancel]
    rw [splitGo_skip]

theorem split_append_sep (sep a b : QString) (hne : sep ≠ []) (h : NoStart sep a (sep ++ b)) :
    split (a ++ sep ++ b) sep = a :: split b sep := by
  unfold split
  rw [List.append_assoc, splitGo_noStart sep a (sep ++ b) h, split_at_sep sep b hne]
  simp

theorem indexOfGo_noStart (sep a rest : QString) (h : NoStart sep a rest)
    (hp : sep.isPrefixOf rest = true) (hne : sep ≠ []) :
    ∀ pos, indexOfGo sep (a ++ rest) pos = some (pos + a.length) := by
  induction a with
  | nil =>
    intro pos
    cases rest with
    | nil =>
      cases sep with
      | nil => exact absurd rfl hne
      | cons c cs => simp [List.isPrefixOf] at hp
    | cons r rs => simp [indexOfGo, hp]
  | cons c cs ih =>
    intro pos
    obtain ⟨h1, h2⟩ := h
    rw [List.cons_append]
    simp only [indexOfGo, h1, Bool.false_eq_true, if_false, List.length_cons]
    rw [ih h2]
    congr 1
    omega

theorem indexOf_append_sep (sep a b : QString) (hne : sep ≠ [])
    (h : NoStart sep a (sep ++ b)) : indexOf (a ++ sep ++ b) sep 0 = (a.length : Int) := by
  unfold indexOf
  simp only [Nat.not_lt_zero, if_false, List.drop_zero, List.append_assoc]
  rw [indexOfGo_noStart sep a (sep ++ b) h (isPrefixOf_append_self sep b) hne 0]
  simp

theorem removeGo_skip (sub : QString) (x rest : QString) :
    removeGo sub x.length (x ++ rest) = removeGo sub 0 rest := by
  induction x with
  | nil => rfl
  | cons c cs ih => simpa [removeGo] using ih

theorem removeGo_noStart (sub a rest : QString) (h : NoStart sub a rest) :
    removeGo sub 0 (a ++ rest) = a ++ removeGo sub 0 rest := by
  induction a with
  | nil => rfl
  | cons c cs ih =>
    obtain ⟨h1, h2⟩ := h
    rw [List.cons_append]
    simp only [removeGo, h1, Bool.false_eq_true, if_false]
    rw [ih h2, List.cons_append]

theorem remove_suffix (sub a : QString) (hne : sub ≠ []) (h : NoStart sub a sub) :
    remove (a ++ sub) sub = a := by
  unfold remove
  have he : sub.isEmpty = false := by cases sub <;> simp_all
  rw [he]
  simp only [Bool.false_eq_true, if_false]
  rw [removeGo_noStart sub a sub h]
  cases sub with
  | nil => exact absurd rfl hne
  | cons c cs =>
    have hp := isPrefixOf_append_self (c :: cs) []
    simp only [List.append_nil] at hp
    simp only [removeGo, hp, if_true, List.length_cons, Nat.add_sub_cancel]
    have := removeGo_skip (c :: cs) cs []
    simp only [List.append_nil] at this
    rw [this]
    simp [removeGo]

/-! ## C1: a well-formed scene heading is parsed into intro, location and time -/

theorem qs_dot : qs ". " = ['.', ' '] := rfl

theorem qs_dash2 : qs " -- " = [' ', '-', '-', ' '] := rfl

theorem qs_dash1 : qs " - " = [' ', '-', ' '] := rfl

theorem head_ne_of_not_mem (k : Char) (t : QString) (h : k ∉ t) : t.head? ≠ some k := by
  cases t with
  | nil => simp
  | cons c cs =>
    simp only [List.mem_cons, not_or] at h
    simp [Ne.symm h.1]

theorem split_dash2 (a t : QString) (ha : '-' ∉ a) (ht : '-' ∉ t) :
    split (a ++ qs " -- " ++ t) (qs " -- ") = [a, t] := by
  rw [split_append_sep _ _ _ (by simp [qs_dash2])]
  · rw [split_none]
    rw [qs_dash2]
    exact noStart_of_second _ _ _ _ _ ht (by simp)
  · rw [qs_dash2]
    exact noStart_of_second _ _ _ _ _ ha (by simp)

theorem split_dash1 (a t : QString) (ha : '-' ∉ a) (ht : '-' ∉ t) :
    split (a ++ qs " - " ++ t) (qs " - ") = [a, t] := by
  rw [split_append_sep _ _ _ (by simp [qs_dash1])]
  · rw [split_none]
    rw [qs_dash1]
    exact noStart_of_second _ _ _ _ _ ht (by simp)
  · rw [qs_dash1]
    exact noStart_of_second _ _ _ _ _ ha (by simp)

theorem split_dash2_of_dash1 (a t : QString) (ha : '-' ∉ a) (ht : '-' ∉ t) :
    split (a ++ qs " - " ++ t) (qs " -- ") = [a ++ qs " - " ++ t] := by
  apply split_none
  rw [List.append_assoc]
  apply noStart_append
  · rw [qs_dash2, qs_dash1]
    exact noStart_of_second _ _ _ _ _ ha (by simp)
  · rw [qs_dash2, qs_dash1]
    have h3 : NoStart [' ', '-', '-', ' '] t [] := noStart_of_second _ _ _ _ _ ht (by simp)
    refine ⟨by simp [List.isPrefixOf], by simp [List.isPrefixOf], ?_, h3⟩
    cases t with
    | nil => simp [List.isPrefixOf]
    | cons c cs =>
      simp only [List.mem_cons, not_or] at ht
      simp only [List.nil_append, List.append_nil, List.isPrefixOf, Bool.and_eq_false_imp,
        beq_iff_eq]
      intro _ e
      exact absurd e ht.1

theorem remove_dash2 (a t : QString) (ha : '-' ∉ a) :
    remove (a ++ qs " -- " ++ t) (qs " -- " ++ t) = a := by
  rw [List.append_assoc]
  apply remove_suffix
  · simp [qs_dash2]
  · rw [qs_dash2]
    exact noStart_of_second _ _ _ _ _ ha (by simp)

theorem remove_dash1 (a t : QString) (ha : '-' ∉ a) :
    remove (a ++ qs " - " ++ t) (qs " - " ++ t) = a := by
  rw [List.append_assoc]
  apply remove_suffix
  · simp [qs_dash1]
  · rw [qs_dash1]
    exact noStart_of_second _ _ _ _ _ ha (by simp)

theorem split_dot (a r : QString) (ha : '.' ∉ a) :
    split (a ++ qs ". " ++ r) (qs ". ") = a :: split r (qs ". ") := by
  apply split_append_sep _ _ _ (by simp [qs_dot])
  rw [qs_dot]
  exact noStart_of_first _ _ _ _ ha

theorem indexOf_dot (a r : QString) (ha : '.' ∉ a) :
    indexOf (a ++ qs ". " ++ r) (qs ". ") 0 = (a.length : Int) := by
  apply indexOf_append_sep _ _ _ (by simp [qs_dot])
  rw [qs_dot]
  exact noStart_of_first _ _ _ _ ha

theorem split_length_pos (s sep : QString) : 0 < (split s sep).length :=
  List.length_pos.2 (splitGo_ne_nil sep s 0)

theorem mid_after_dot (a r : QString) :
    mid (a ++ qs ". " ++ r) ((a.length : Int) + 2) = r := by
  have h : (((a.length : Int) + 2).toNat) = (a ++ qs ". ").length := by
    simp [qs_dot]; omega
  unfold mid
  rw [h, List.drop_left]

theorem simplified_upper_phrase (s : QString) (h : isPhrase s = true) :
    simplified (smartToUpper s) = smartToUpper s :=
  simplified_phrase _ (isPhrase_upper s h)

theorem dot_not_mem (s : QString) (h : isPhrase s = true) : '.' ∉ s :=
  phrase_not_mem s true h '.' (by decide) (by decide)

theorem dash_not_mem (s : QString) (h : isPhrase s = true) : '-' ∉ s :=
  phrase_not_mem s true h '-' (by decide) (by decide)

theorem sceneIntro_heading (i r : QString) (hi : isPhrase i = true) :
    NovelSceneHeadingParser.sceneIntro (i ++ qs ". " ++ r) = smartToUpper i ++ qs "." := by
  have hc : contains (i ++ qs ". " ++ r) (qs ". ") = true := by
    unfold contains
    rw [indexOf_dot i r (dot_not_mem i hi)]
    simp
  unfold NovelSceneHeadingParser.sceneIntro
  simp only [hc, Bool.not_true, Bool.false_eq_true, if_false]
  rw [split_dot i r (dot_not_mem i hi)]
  simp only [constFirst, List.headD_cons]
  rw [simplified_upper_phrase i hi]

theorem heading_parse_dash2 (i l t : QString) (hi : isPhrase i = true) (hl : isPhrase l = true)
    (ht : isPhrase t = true) :
    NovelSceneHeadingParser.location (i ++ qs ". " ++ l ++ qs " -- " ++ t) false = smartToUpper l
    ∧ NovelSceneHeadingParser.sceneTime (i ++ qs ". " ++ l ++ qs " -- " ++ t) = smartToUpper t := by
  have e1 : i ++ qs ". " ++ l ++ qs " -- " ++ t = i ++ qs ". " ++ (l ++ qs " -- " ++ t) := by
    simp [List.append_assoc]
  have hA : '-' ∉ i ++ qs ". " ++ l := by
    simp [qs_dot, dash_not_mem i hi, dash_not_mem l hl]
  constructor
  · unfold NovelSceneHeadingParser.location
    have hlen := split_length_pos (l ++ qs " -- " ++ t) (qs ". ")
    have h1 : (i :: split (l ++ qs " -- " ++ t) (qs ". ")).length > 1 := by
      simp only [List.length_cons]; omega
    simp only [e1, split_dot i _ (dot_not_mem i hi), indexOf_dot i _ (dot_not_mem i hi),
      mid_after_dot, split_dash2 l t (dash_not_mem l hl) (dash_not_mem t ht), h1, if_true,
      Bool.not_false, constLast, List.getLastD_cons, List.getLastD_nil, List.length_cons,
      List.length_nil, Nat.zero_add, Nat.reduceAdd, Nat.one_lt_ofNat, gt_iff_lt,
      remove_dash2 l t (dash_not_mem l hl), simplified_phrase l hl]
    rw [if_pos (by omega), simplified_upper_phrase l hl]
  · unfold NovelSceneHeadingParser.sceneTime
    simp only [split_dash2 _ t hA (dash_not_mem t ht), List.length_cons, constLast,
      List.getLastD_cons, List.getLastD_nil, List.length_nil, Nat.zero_add, Nat.reduceAdd,
      ge_iff_le, Nat.le_refl, if_true, simplified_phrase t ht, simplified_upper_phrase t ht]

theorem heading_parse_dash1 (i l t : QString) (hi : isPhrase i = true) (hl : isPhrase l = true)
    (ht : isPhrase t = true) :
    NovelSceneHeadingParser.location (i ++ qs ". " ++ l ++ qs " - " ++ t) false = smartToUpper l
    ∧ NovelSceneHeadingParser.sceneTime (i ++ qs ". " ++ l ++ qs " - " ++ t) = smartToUpper t := by
  have e1 : i ++ qs ". " ++ l ++ qs " - " ++ t = i ++ qs ". " ++ (l ++ qs " - " ++ t) := by
    simp [List.append_assoc]
  have hA : '-' ∉ i ++ qs ". " ++ l := by
    simp [qs_dot, dash_not_mem i hi, dash_not_mem l hl]
  constructor
  · unfold NovelSceneHeadingParser.location
    have hlen := split_length_pos (l ++ qs " - " ++ t) (qs ". ")
    have h1 : (i :: split (l ++ qs " - " ++ t) (qs ". ")).length > 1 := by
      simp only [List.length_cons]; omega
    simp only [e1, split_dot i _ (dot_not_mem i hi), indexOf_dot i _ (dot_not_mem i hi),
      mid_after_dot, split_dash2_of_dash1 l t (dash_not_mem l hl) (dash_not_mem t ht),
      split_dash1 l t (dash_not_mem l hl) (dash_not_mem t ht), h1, if_true,
      Bool.not_false, constLast, List.getLastD_cons, List.getLastD_nil, List.length_cons,
      List.length_nil, Nat.zero_add, Nat.reduceAdd, gt_iff_lt, Nat.lt_irrefl, if_false,
      remove_dash1 l t (dash_not_mem l hl), simplified_phrase l hl]
    rw [if_pos (by omega), simplified_upper_phrase l hl]
  · unfold NovelSceneHeadingParser.sceneTime
    simp only [split_dash2_of_dash1 _ t hA (dash_not_mem t ht),
      split_dash1 _ t hA (dash_not_mem t ht), List.length_cons, constLast,
      List.getLastD_cons, List.getLastD_nil, List.length_nil, Nat.zero_add, Nat.reduceAdd,
      ge_iff_le, Nat.le_refl, if_true, Nat.reduceLeDiff, if_false, simplified_phrase t ht,
      simplified_upper_phrase t ht]

/-- C1: for phrases `i`, `l`, `t` (words of letters and digits joined by single
spaces) and a separator `" -- "` or `" - "`, the heading
`i + ". " + l + sep + t` is parsed as intro `smartToUpper(i) + "."`, non-forced
location `smartToUpper(l)` and scene time `smartToUpper(t)`. -/
theorem sceneHeading_parts (i l t sep : QString) (hi : isPhrase i = true)
    (hl : isPhrase l = true) (ht : isPhrase t = true)
    (hsep : sep = qs " -- " ∨ sep = qs " - ") :
    NovelSceneHeadingParser.sceneIntro (i ++ qs ". " ++ l ++ sep ++ t)
        = smartToUpper i ++ qs "."
      ∧ NovelSceneHeadingParser.location (i ++ qs ". " ++ l ++ sep ++ t) false = smartToUpper l
      ∧ NovelSceneHeadingParser.sceneTime (i ++ qs ". " ++ l ++ sep ++ t) = smartToUpper t := by
  have e1 : i ++ qs ". " ++ l ++ sep ++ t = i ++ qs ". " ++ (l ++ sep ++ t) := by
    simp [List.append_assoc]
  refine ⟨by rw [e1]; exact sceneIntro_heading i _ hi, ?_⟩
  rcases hsep with rfl | rfl
  · exact heading_parse_dash2 i l t hi hl ht
  · exact heading_parse_dash1 i l t hi hl ht

/-- C1 at "INT. KITCHEN -- NIGHT": intro "INT.", location "KITCHEN", time
"NIGHT". -/
theorem sceneHeading_parts_witness :
    NovelSceneHeadingParser.sceneIntro (qs "INT. KITCHEN -- NIGHT") = qs "INT."
      ∧ NovelSceneHeadingParser.location (qs "INT. KITCHEN -- NIGHT") false = qs "KITCHEN"
      ∧ NovelSceneHeadingParser.sceneTime (qs "INT. KITCHEN -- NIGHT") = qs "NIGHT" :=
  sceneHeading_parts (qs "INT") (qs "KITCHEN") (qs "NIGHT") (qs " -- ")
    (by decide) (by decide) (by decide) (Or.inl rfl)

/-! ## Facts about updateNumbering -/

theorem numberScene_custom (ops : NumberOps) (g : GroupData) (cs : List Item)
    (st : NumberingState) (n : SceneNumber) (hn : g.number = some n) (hc : n.isCustom = true) :
    (numberScene ops g cs st).1
      = { g with number := some { n with text := ops.numberText (qs "#.") n } } := by
  unfold numberScene
  by_cases hl : n.isLocked = true
  · simp [hl, hn, hc, prepareNumberText]
  · by_cases he : n.isEatNumber = true
    · simp [hl, he, hn, hc, prepareNumberText]
    · simp [hl, he, hn, hc, prepareNumberText]

mutual
theorem updateItem_custom (ops : NumberOps) :
    ∀ (item : Item) (st : NumberingState) (path : List Nat) (g : GroupData) (cs : List Item)
      (n : SceneNumber), itemAt item path = some (.group g cs) → g.number = some n →
      n.isCustom = true →
      ∃ g1 cs1 n1, itemAt (updateItemNumbering ops item st).1 path = some (.group g1 cs1)
        ∧ g1.groupType = g.groupType ∧ g1.number = some n1 ∧ SameNumber n1 n
  | .folder cs0, st, [], g, cs, n, h, _, _ => by simp [itemAt] at h
  | .folder cs0, st, row :: path, g, cs, n, h, hn, hc => by
    simp only [itemAt] at h
    simp only [updateItemNumbering, itemAt]
    exact updateChildren_custom ops cs0 st row path g cs n h hn hc
  | .group g0 cs0, st, [], g, cs, n, h, hn, hc => by
    simp only [itemAt, Option.some.injEq, Item.group.injEq] at h
    obtain ⟨rfl, rfl⟩ := h
    simp only [updateItemNumbering]
    by_cases hs : g0.groupType = TextGroupType.Scene
    · simp only [hs, if_true, itemAt, numberScene_custom ops g0 _ _ n hn hc]
      exact ⟨_, _, _, rfl, rfl, rfl, rfl, rfl, rfl, rfl, rfl⟩
    · simp only [hs, if_false, itemAt]
      exact ⟨_, _, _, rfl, rfl, hn, rfl, rfl, rfl, rfl, rfl⟩
  | .group g0 cs0, st, row :: path, g, cs, n, h, hn, hc => by
    simp only [itemAt] at h
    have := updateChildren_custom ops cs0 st row path g cs n h hn hc
    simp only [updateItemNumbering]
    split <;> simpa [itemAt] using this
  | .text t, st, [], g, cs, n, h, _, _ => by simp [itemAt] at h
  | .text t, st, row :: path, g, cs, n, h, _, _ => by simp [itemAt] at h
theorem updateChildren_custom (ops : NumberOps) :
    ∀ (items : List Item) (st : NumberingState) (row : Nat) (path : List Nat) (g : GroupData)
      (cs : List Item) (n : SceneNumber), itemAtRow items row path = some (.group g cs) →
      g.number = some n → n.isCustom = true →
      ∃ g1 cs1 n1, itemAtRow (updateChildNumbering ops items st).1 row path
          = some (.group g1 cs1)
        ∧ g1.groupType = g.groupType ∧ g1.number = some n1 ∧ SameNumber n1 n
  | [], st, row, path, g, cs, n, h, _, _ => by simp [itemAtRow] at h
  | c :: rest, st, 0, path, g, cs, n, h, hn, hc => by
    simp only [itemAtRow] at h
    simp only [updateChildNumbering, itemAtRow]
    exact updateItem_custom ops c st path g cs n h hn hc
  | c :: rest, st, row + 1, path, g, cs, n, h, hn, hc => by
    simp only [itemAtRow] at h
    simp only [updateChildNumbering, itemAtRow]
    exact updateChildren_custom ops rest _ row path g cs n h hn hc
end

/-- C4: for every tree, every implementation of the group operations and every
group in the tree whose number has `isCustom = true`, the group found at the
same place after `updateNumbering` has the same number: `value`,
`followNumber` and the three flags are those it had before, whatever
`isEatNumber` and `isLocked` are and whatever surrounds the group. -/
theorem updateNumbering_keeps_custom (ops : NumberOps) (rootChildren : List Item)
    (row : Nat) (path : List Nat) (g : GroupData) (cs : List Item) (n : SceneNumber)
    (hitem : itemAt (.folder rootChildren) (row :: path) = some (.group g cs))
    (hnum : g.number = some n) (hcustom : n.isCustom = true) :
    ∃ g1 cs1 n1,
      itemAt (updateNumbering ops (.folder rootChildren)).1 (row :: path) = some (.group g1 cs1)
        ∧ g1.groupType = g.groupType ∧ g1.number = some n1 ∧ SameNumber n1 n := by
  simp only [itemAt] at hitem
  simp only [updateNumbering, Item.children, itemAt]
  exact updateChildren_custom ops rootChildren initialNumbering row path g cs n hitem hnum hcustom

mutual
theorem updateItem_noScenes (ops : NumberOps) :
    ∀ (item : Item) (st : NumberingState), scenes item = [] →
      (updateItemNumbering ops item st).2.sceneNumber = st.sceneNumber
      ∧ (updateItemNumbering ops item st).2.lastLockedSceneFullNumber
          = st.lastLockedSceneFullNumber
      ∧ (updateItemNumbering ops item st).2.scenesCount = st.scenesCount
      ∧ scenes (updateItemNumbering ops item st).1 = []
  | .folder cs, st, h => by
    simp only [scenes] at h
    simpa [updateItemNumbering, scenes] using updateChildren_noScenes ops cs st h
  | .group g cs, st, h => by
    simp only [scenes] at h
    by_cases hs : g.groupType = TextGroupType.Scene
    · simp [hs] at h
    · simp only [hs, if_false] at h
      simpa [updateItemNumbering, scenes, hs] using updateChildren_noScenes ops cs st h
  | .text t, st, _ => by
    simp only [updateItemNumbering, numberParagraph, scenes]
    split <;> simp
theorem updateChildren_noScenes (ops : NumberOps) :
    ∀ (items : List Item) (st : NumberingState), scenesList items = [] →
      (updateChildNumbering ops items st).2.sceneNumber = st.sceneNumber
      ∧ (updateChildNumbering ops items st).2.lastLockedSceneFullNumber
          = st.lastLockedSceneFullNumber
      ∧ (updateChildNumbering ops items st).2.scenesCount = st.scenesCount
      ∧ scenesList (updateChildNumbering ops items st).1 = []
  | [], st, _ => by simp [updateChildNumbering, scenesList]
  | c :: rest, st, h => by
    simp only [scenesList, List.append_eq_nil] at h
    obtain ⟨h1, h2, h3, h4⟩ := updateItem_noScenes ops c st h.1
    obtain ⟨k1, k2, k3, k4⟩ :=
      updateChildren_noScenes ops rest (updateItemNumbering ops c st).2 h.2
    simp only [updateChildNumbering, scenesList, List.append_eq_nil]
    exact ⟨k1.trans h1, k2.trans h2, k3.trans h3, h4, k4⟩
end

theorem numberScene_groupType (ops : NumberOps) (g : GroupData) (cs : List Item)
    (st : NumberingState) : (numberScene ops g cs st).1.groupType = g.groupType := by
  unfold numberScene
  simp only
  split_ifs <;> rfl

theorem numberScene_storeAll (g : GroupData) (cs : List Item) (st : NumberingState) :
    numberScene storeAll g cs st
      = ((sceneStep g st.sceneNumber st.lastLockedSceneFullNumber).1,
         { st with
            scenesCount := st.scenesCount + 1
            sceneNumber := (sceneStep g st.sceneNumber st.lastLockedSceneFullNumber).2.1
            lastLockedSceneFullNumber :=
              (sceneStep g st.sceneNumber st.lastLockedSceneFullNumber).2.2 }) := by
  unfold sceneStep numberScene
  simp only [storeAll, storeOps, storeSetNumber, if_true]
  split_ifs <;> rfl

theorem numberFlat_append (a b : List GroupData) : ∀ (n : Nat) (f : QString),
    numberFlat (a ++ b) n f
      = ((numberFlat a n f).1 ++ (numberFlat b (numberFlat a n f).2.1 (numberFlat a n f).2.2).1,
         (numberFlat b (numberFlat a n f).2.1 (numberFlat a n f).2.2).2) := by
  induction a with
  | nil => intro n f; simp [numberFlat]
  | cons g gs ih => intro n f; simp [numberFlat, ih]

theorem numberFlat_length (a : List GroupData) : ∀ (n : Nat) (f : QString),
    (numberFlat a n f).1.length = a.length := by
  induction a with
  | nil => intro n f; simp [numberFlat]
  | cons g gs ih => intro n f; simp [numberFlat, ih]

mutual
theorem updateItem_flat :
    ∀ (item : Item) (st : NumberingState), flatScenes item = true →
      scenes (updateItemNumbering storeAll item st).1
          = (numberFlat (scenes item) st.sceneNumber st.lastLockedSceneFullNumber).1
      ∧ (updateItemNumbering storeAll item st).2.sceneNumber
          = (numberFlat (scenes item) st.sceneNumber st.lastLockedSceneFullNumber).2.1
      ∧ (updateItemNumbering storeAll item st).2.lastLockedSceneFullNumber
          = (numberFlat (scenes item) st.sceneNumber st.lastLockedSceneFullNumber).2.2
  | .folder cs, st, h => by
    simp only [flatScenes] at h
    simpa [updateItemNumbering, scenes] using updateChildren_flat cs st h
  | .group g cs, st, h => by
    simp only [flatScenes] at h
    by_cases hs : g.groupType = TextGroupType.Scene
    · simp only [hs, if_true, List.isEmpty_iff] at h
      obtain ⟨h1, h2, _, h4⟩ := updateChildren_noScenes storeAll cs st h
      have ht := numberScene_groupType storeAll g (updateChildNumbering storeAll cs st).1
        (updateChildNumbering storeAll cs st).2
      rw [hs] at ht
      simp only [updateItemNumbering, hs, if_true, scenes, ht, h4, h]
      rw [numberScene_storeAll]
      simp [numberFlat, h1, h2]
    · simp only [hs, if_false] at h
      simpa [updateItemNumbering, scenes, hs] using updateChildren_flat cs st h
  | .text t, st, _ => by
    simp only [updateItemNumbering, numberParagraph, scenes, numberFlat]
    split <;> simp
theorem updateChildren_flat :
    ∀ (items : List Item) (st : NumberingState), flatScenesList items = true →
      scenesList (updateChildNumbering storeAll items st).1
          = (numberFlat (scenesList items) st.sceneNumber st.lastLockedSceneFullNumber).1
      ∧ (updateChildNumbering storeAll items st).2.sceneNumber
          = (numberFlat (scenesList items) st.sceneNumber st.lastLockedSceneFullNumber).2.1
      ∧ (updateChildNumbering storeAll items st).2.lastLockedSceneFullNumber
          = (numberFlat (scenesList items) st.sceneNumber st.lastLockedSceneFullNumber).2.2
  | [], st, _ => by simp [updateChildNumbering, scenesList, numberFlat]
  | c :: rest, st, h => by
    simp only [flatScenesList, Bool.and_eq_true] at h
    obtain ⟨h1, h2, h3⟩ := updateItem_flat c st h.1
    obtain ⟨k1, k2, k3⟩ := updateChildren_flat rest (updateItemNumbering storeAll c st).2 h.2
    simp only [updateChildNumbering, scenesList]
    rw [h1, k1, k2, k3, h2, h3, numberFlat_append]
    exact ⟨rfl, rfl, rfl⟩
end

theorem sceneStep_locked (g : GroupData) (n : Nat) (f : QString)
    (h : isLockedScene g = true) : (sceneStep g n f).2 = (0, fullNumber g) := by
  unfold isLockedScene at h
  simp [sceneStep, numberScene, h, fullNumber]

theorem sceneStep_unlocked (g : GroupData) (n : Nat) (f : QString)
    (h : isLockedScene g = false) :
    (sceneStep g n f).2 = (n + counterAdvance [g], f) := by
  unfold isLockedScene at h
  simp only [sceneStep, numberScene, h, counterAdvance, isAutoScene, isEatScene, storeAll,
    storeOps, storeSetNumber, List.filter_cons, List.filter_nil]
  cases hc : (g.number.map (fun n => n.isCustom)).getD false <;>
    cases he : (g.number.map (fun n => n.isEatNumber)).getD false <;> simp

theorem sceneStep_auto (g : GroupData) (n : Nat) (f : QString) (h : isAutoScene g = true) :
    ∃ m, (sceneStep g n f).1.number = some m ∧ m.value = (Nat.repr n).toList
      ∧ m.followNumber = f := by
  unfold isAutoScene at h
  simp only [Bool.and_eq_true, Bool.not_eq_true'] at h
  simp [sceneStep, numberScene, h.1, h.2, storeAll, storeOps, storeSetNumber,
    prepareNumberText]

theorem counterAdvance_cons (g : GroupData) (l : List GroupData) :
    counterAdvance (g :: l) = counterAdvance [g] + counterAdvance l := by
  simp only [counterAdvance, List.filter_cons, List.filter_nil]
  split <;> split <;> simp <;> omega

theorem numberFlat_unlocked (l : List GroupData) : ∀ (n : Nat) (f : QString),
    (∀ x ∈ l, isLockedScene x = false) → (numberFlat l n f).2 = (n + counterAdvance l, f) := by
  induction l with
  | nil => intro n f _; simp [numberFlat, counterAdvance]
  | cons g gs ih =>
    intro n f h
    have hg := sceneStep_unlocked g n f (h g (List.mem_cons_self _ _))
    simp only [numberFlat]
    have e1 : (sceneStep g n f).2.1 = n + counterAdvance [g] := by rw [hg]
    have e2 : (sceneStep g n f).2.2 = f := by rw [hg]
    rw [e1, e2, ih _ _ (fun x hx => h x (List.mem_cons_of_mem _ hx)), counterAdvance_cons g gs]
    simp [Nat.add_assoc]

theorem numberFlat_get (pre : List GroupData) (a : GroupData) (post : List GroupData)
    (n : Nat) (f : QString) :
    (numberFlat (pre ++ a :: post) n f).1[pre.length]?
      = some (sceneStep a (numberFlat pre n f).2.1 (numberFlat pre n f).2.2).1 := by
  rw [numberFlat_append]
  simp only [numberFlat]
  rw [List.getElem?_append_right (by rw [numberFlat_length])]
  simp [numberFlat_length]

/-- C3 (amended): in a tree where no scene contains another scene and
`setNumber` stores what it is passed, an automatically numbered scene gets the
counter `1 +` (the automatic scenes and the `isEatNumber` custom scenes before
it) and an empty follow-number when no locked scene precedes it, and otherwise
the counter `0 +` (those scenes since the nearest preceding locked scene `l`)
with the follow-number `followNumber + value` of `l`. -/
theorem autoNumbers_flat (rootChildren : List Item) (pre : List GroupData) (a : GroupData)
    (post : List GroupData) (hflat : flatScenesList rootChildren = true)
    (hsplit : scenesList rootChildren = pre ++ a :: post) (hauto : isAutoScene a = true) :
    ∃ a1 n1,
      (scenesList (updateNumbering storeAll (.folder rootChildren)).1.children)[pre.length]?
          = some a1
        ∧ a1.number = some n1
        ∧ ((∀ x ∈ pre, isLockedScene x = false) →
            n1.value = (Nat.repr (1 + counterAdvance pre)).toList ∧ n1.followNumber = [])
        ∧ (∀ pre1 l mid, pre = pre1 ++ l :: mid → isLockedScene l = true →
            (∀ x ∈ mid, isLockedScene x = false) →
            n1.value = (Nat.repr (counterAdvance mid)).toList
              ∧ n1.followNumber = fullNumber l) := by
  obtain ⟨h1, _, _⟩ := updateChildren_flat rootChildren initialNumbering hflat
  obtain ⟨m, hm1, hm2, hm3⟩ := sceneStep_auto a
    (numberFlat pre initialNumbering.sceneNumber initialNumbering.lastLockedSceneFullNumber).2.1
    (numberFlat pre initialNumbering.sceneNumber initialNumbering.lastLockedSceneFullNumber).2.2
    hauto
  refine ⟨_, m, ?_, hm1, ?_, ?_⟩
  · simp only [updateNumbering, Item.children]
    rw [h1, hsplit]
    exact numberFlat_get pre a post _ _
  · intro hpre
    rw [hm2, hm3, numberFlat_unlocked pre _ _ hpre]
    simp [initialNumbering]
  · intro pre1 l mid hp hl hmid
    rw [hm2, hm3, hp, numberFlat_append]
    simp only [numberFlat]
    rw [numberFlat_unlocked mid _ _ hmid, sceneStep_locked l _ _ hl]
    simp

theorem numberScene_locked (ops : NumberOps) (g : GroupData) (cs : List Item)
    (st : NumberingState) (n : SceneNumber) (hn : g.number = some n)
    (hl : n.isLocked = true) :
    (numberScene ops g cs st).2.sceneNumber = 0
      ∧ (numberScene ops g cs st).2.lastLockedSceneFullNumber = n.followNumber ++ n.value := by
  simp [numberScene, hn, hl]

theorem numberScene_auto (ops : NumberOps) (g : GroupData) (cs : List Item)
    (st : NumberingState) (h : isAutoScene g = true) :
    (numberScene ops g cs st).1
        = autoNumbered ops g cs st.sceneNumber st.lastLockedSceneFullNumber
      ∧ (numberScene ops g cs st).2.sceneNumber
        = (if (ops.setNumber g cs st.sceneNumber st.lastLockedSceneFullNumber).2 = true
            then st.sceneNumber + 1 else st.sceneNumber)
      ∧ (numberScene ops g cs st).2.lastLockedSceneFullNumber
        = st.lastLockedSceneFullNumber := by
  unfold isAutoScene at h
  simp only [Bool.and_eq_true, Bool.not_eq_true'] at h
  simp only [numberScene, h.1, h.2, autoNumbered, Bool.false_eq_true, if_false]
  split <;> exact ⟨rfl, rfl, rfl⟩

/-- C2 (amended): after `updateNumbering` on a root holding a scene locked at
number 5 followed by two automatically numbered scenes (which contain no
scenes), the scene counter restarts at 0 and the locked number becomes the
follow-number: the first of the two is numbered by `setNumber(0, "5")`, the
second by `setNumber(1, "5")` (by `setNumber(0, "5")` when the first call
reported failure). -/
theorem lockedCheckpoint (ops : NumberOps) (g0 g1 g2 : GroupData) (c0 c1 c2 : List Item)
    (n0 : SceneNumber) (h0 : g0.groupType = TextGroupType.Scene) (hn0 : g0.number = some n0)
    (hlocked : n0.isLocked = true) (hfive : n0.followNumber ++ n0.value = qs "5")
    (h1 : g1.groupType = TextGroupType.Scene) (ha1 : isAutoScene g1 = true)
    (h2 : g2.groupType = TextGroupType.Scene) (ha2 : isAutoScene g2 = true)
    (hc1 : scenesList c1 = []) (hc2 : scenesList c2 = []) :
    ∃ e0 d0 d1 d2,
      (updateNumbering ops (.folder [.group g0 c0, .group g1 c1, .group g2 c2])).1
        = .folder [.group e0 d0,
            .group (autoNumbered ops g1 d1 0 (qs "5")) d1,
            .group (autoNumbered ops g2 d2
              (if (ops.setNumber g1 d1 0 (qs "5")).2 = true then 1 else 0) (qs "5")) d2] := by
  simp only [updateNumbering, Item.children, updateChildNumbering, updateItemNumbering, h0, h1,
    h2, if_true]
  generalize updateChildNumbering ops c0 initialNumbering = r0
  obtain ⟨l1, l2⟩ := numberScene_locked ops g0 r0.1 r0.2 n0 hn0 hlocked
  rw [hfive] at l2
  generalize numberScene ops g0 r0.1 r0.2 = s0 at l1 l2 ⊢
  obtain ⟨a1, a2, _, _⟩ := updateChildren_noScenes ops c1 s0.2 hc1
  rw [l1] at a1
  rw [l2] at a2
  generalize updateChildNumbering ops c1 s0.2 = r1 at a1 a2 ⊢
  obtain ⟨b1, b2, b3⟩ := numberScene_auto ops g1 r1.1 r1.2 ha1
  rw [a1, a2] at b1 b2
  rw [a2] at b3
  generalize numberScene ops g1 r1.1 r1.2 = s1 at b1 b2 b3 ⊢
  obtain ⟨k1, k2, _, _⟩ := updateChildren_noScenes ops c2 s1.2 hc2
  rw [b2] at k1
  rw [b3] at k2
  generalize updateChildNumbering ops c2 s1.2 = r2 at k1 k2 ⊢
  obtain ⟨m1, _, _⟩ := numberScene_auto ops g2 r2.1 r2.2 ha2
  rw [k1, k2] at m1
  refine ⟨s0.1, r0.1, r1.1, r2.1, ?_⟩
  rw [b1, m1]

/-- C2 at a concrete input: the locked scene 5 followed by two scenes without
a number, `setNumber` storing what it is passed. -/
theorem lockedCheckpoint_witness :
    ∃ e0 d0 d1 d2,
      (updateNumbering storeAll (.folder [sceneWith lockedFive [], sceneWith plainScene [],
          sceneWith plainScene []])).1
        = .folder [.group e0 d0,
            .group (autoNumbered storeAll plainScene d1 0 (qs "5")) d1,
            .group (autoNumbered storeAll plainScene d2
              (if (storeAll.setNumber plainScene d1 0 (qs "5")).2 = true then 1 else 0)
              (qs "5")) d2] :=
  lockedCheckpoint storeAll lockedFive plainScene plainScene
    [paragraph TextParagraphType.SceneHeading "INT. HOUSE - DAY"]
    [paragraph TextParagraphType.SceneHeading "INT. HOUSE - DAY"]
    [paragraph TextParagraphType.SceneHeading "INT. HOUSE - DAY"]
    { value := qs "5", followNumber := [], isCustom := false, isEatNumber := true,
      isLocked := true, text := [] }
    rfl rfl rfl rfl rfl rfl rfl rfl rfl rfl

/-- C2 as stated fails: the locked scene has the full number 5, and after it
the scene counter does not restart at 6.  Whatever `setNumber` and
`prepareNumberText` do, the locked branch leaves the counter at 0 with "5" as
the remembered locked number, and the scene after it is numbered by the call
`setNumber(0, "5")`. -/
theorem lockedCheckpoint_counterexample :
    fullNumber lockedFive = qs "5"
      ∧ ∀ ops : NumberOps,
        (updateChildNumbering ops [sceneWith lockedFive []] initialNumbering).2.sceneNumber = 0
          ∧ (updateChildNumbering ops [sceneWith lockedFive []] initialNumbering).2.sceneNumber
              ≠ 6
          ∧ (updateChildNumbering ops [sceneWith lockedFive []]
              initialNumbering).2.lastLockedSceneFullNumber = qs "5"
          ∧ (updateNumbering ops (.folder [sceneWith lockedFive [],
                sceneWith plainScene []])).1.children.get? 1
              = some (.group
                  (autoNumbered ops plainScene
                    [paragraph TextParagraphType.SceneHeading "INT. HOUSE - DAY"] 0 (qs "5"))
                  [paragraph TextParagraphType.SceneHeading "INT. HOUSE - DAY"]) := by
  refine ⟨by decide, ?_⟩
  intro ops
  have h : (updateChildNumbering ops [sceneWith lockedFive []] initialNumbering).2.sceneNumber
      = 0 := rfl
  refine ⟨rfl, ?_, rfl, ?_⟩
  · rw [h]
    decide
  · have e : (updateNumbering ops (.folder [sceneWith lockedFive [],
          sceneWith plainScene []])).1.children.get? 1
        = some (.group
            (numberScene ops plainScene
              [paragraph TextParagraphType.SceneHeading "INT. HOUSE - DAY"]
              (updateChildNumbering ops [sceneWith lockedFive []] initialNumbering).2).1
            [paragraph TextParagraphType.SceneHeading "INT. HOUSE - DAY"]) := rfl
    rw [e, (numberScene_auto ops plainScene _ _ rfl).1]
    rfl

/-- C3 as stated fails in three ways: a custom scene flagged `isEatNumber`
between two automatic scenes makes their numbers 1 and 3; a scene nested in a
scene is numbered before it, so in document order the numbers are 2 then 1; and
after the locked scene 5 the next automatic scene has counter 0 behind the
follow-number 5. -/
theorem autoNumbers_counterexample :
    (scenesList (updateNumbering storeAll (.folder [sceneWith plainScene [],
        sceneWith customScene [], sceneWith plainScene []])).1.children).map fullNumber
      = [qs "1", qs "7A", qs "3"]
    ∧ (scenesList (updateNumbering storeAll (.folder [sceneWith plainScene
        [sceneWith plainScene []]])).1.children).map fullNumber
      = [qs "2", qs "1"]
    ∧ (scenesList (updateNumbering storeAll (.folder [sceneWith lockedFive [],
        sceneWith plainScene []])).1.children).map fullNumber
      = [qs "5", qs "50"] := by
  refine ⟨?_, ?_, ?_⟩ <;> decide

/-- C3 (amended) at a concrete input: the locked scene 5, the custom scene 7A
(which eats a number) and a scene without a number. -/
theorem autoNumbers_flat_witness :
    ∃ a1 n1,
      (scenesList (updateNumbering storeAll (.folder [sceneWith lockedFive [],
          sceneWith customScene [], sceneWith plainScene []])).1.children)[2]? = some a1
        ∧ a1.number = some n1
        ∧ ((∀ x ∈ [lockedFive, customScene], isLockedScene x = false) →
            n1.value = (Nat.repr (1 + counterAdvance [lockedFive, customScene])).toList
              ∧ n1.followNumber = [])
        ∧ (∀ pre1 l mid, [lockedFive, customScene] = pre1 ++ l :: mid →
            isLockedScene l = true → (∀ x ∈ mid, isLockedScene x = false) →
            n1.value = (Nat.repr (counterAdvance mid)).toList
              ∧ n1.followNumber = fullNumber l) :=
  autoNumbers_flat [sceneWith lockedFive [], sceneWith customScene [], sceneWith plainScene []]
    [lockedFive, customScene] plainScene [] (by decide) (by decide) (by decide)

/-- C4 at a concrete input: the custom scene 7A inside a folder, after an
automatic scene and before another one. -/
theorem updateNumbering_keeps_custom_witness :
    ∃ g1 cs1 n1,
      itemAt (updateNumbering storeAll (.folder [.folder [sceneWith plainScene [],
          sceneWith customScene [paragraph TextParagraphType.Character "JOHN"]],
          sceneWith plainScene []])).1 [0, 1] = some (.group g1 cs1)
        ∧ g1.groupType = customScene.groupType ∧ g1.number = some n1
        ∧ SameNumber n1 { value := qs "7A", followNumber := [], isCustom := true,
                          isEatNumber := true, isLocked := false, text := [] } :=
  updateNumbering_keeps_custom storeAll [.folder [sceneWith plainScene [],
      sceneWith customScene [paragraph TextParagraphType.Character "JOHN"]],
      sceneWith plainScene []] 0 [1] customScene
    [paragraph TextParagraphType.SceneHeading "INT. HOUSE - DAY",
      paragraph TextParagraphType.Character "JOHN"] _ rfl rfl rfl

/-! ## The loop of characterDialogues ends -/

/-- C6: for a root holding one group whose children are a Character paragraph
and a Dialogue paragraph, `characterDialogues(n)` returns exactly the index of
the Dialogue paragraph when `n` is the parsed name of the cue, and the empty
list for every other name. -/
theorem characterDialogues_cue (g : GroupData) (cue dialogue : TextData)
    (hcue : cue.paragraphType = TextParagraphType.Character)
    (hdialogue : dialogue.paragraphType = TextParagraphType.Dialogue) :
    characterDialogues [.group g [.text cue, .text dialogue]]
        (NovelCharacterParser.name cue.text) = some [[0, 1]]
      ∧ ∀ n : QString, n ≠ NovelCharacterParser.name cue.text → n ≠ [] →
          characterDialogues [.group g [.text cue, .text dialogue]] n = some [] := by
  constructor
  · simp [characterDialogues, forestSize, treeSize, childIndexes, characterDialoguesLoop,
      Item.children, dialogueStep, hcue, hdialogue]
  · intro n hn _
    simp [characterDialogues, forestSize, treeSize, childIndexes, characterDialoguesLoop,
      Item.children, dialogueStep, hcue, hdialogue, Ne.symm hn]

/-- C6 at the scene with the cue "JOHN" and the dialogue "Hello". -/
theorem characterDialogues_cue_witness :
    characterDialogues [.group plainScene [paragraph TextParagraphType.Character "JOHN",
        paragraph TextParagraphType.Dialogue "Hello"]]
        (NovelCharacterParser.name (qs "JOHN")) = some [[0, 1]]
      ∧ ∀ n : QString, n ≠ NovelCharacterParser.name (qs "JOHN") → n ≠ [] →
          characterDialogues [.group plainScene [paragraph TextParagraphType.Character "JOHN",
            paragraph TextParagraphType.Dialogue "Hello"]] n = some [] :=
  characterDialogues_cue plainScene
    { paragraphType := TextParagraphType.Character, text := qs "JOHN", isCorrection := false,
      number := none }
    { paragraphType := TextParagraphType.Dialogue, text := qs "Hello", isCorrection := false,
      number := none } rfl rfl

/-- C10 fails on the code: with a top-level cue "JOHN", then a scene holding an
Action paragraph, then a top-level Dialogue, `characterDialogues("JOHN")`
returns the Dialogue (index `[2]`), because the loop handles the three
top-level items before the Action paragraph inside the scene; the scan in
document order returns nothing.  The same happens inside a scene, when the
Action paragraph sits in a beat between the cue and the Dialogue. -/
theorem characterDialogues_not_document_order :
    characterDialogues [paragraph TextParagraphType.Character "JOHN",
        sceneWith plainScene [paragraph TextParagraphType.Action "He waits."],
        paragraph TextParagraphType.Dialogue "Hello"] (qs "JOHN") = some [[2]]
      ∧ documentOrderDialogues [paragraph TextParagraphType.Character "JOHN",
        sceneWith plainScene [paragraph TextParagraphType.Action "He waits."],
        paragraph TextParagraphType.Dialogue "Hello"] (qs "JOHN") = []
      ∧ characterDialogues [sceneWith plainScene [paragraph TextParagraphType.Character "JOHN",
        .group beatGroup [paragraph TextParagraphType.Action "He waits."],
        paragraph TextParagraphType.Dialogue "Hello"]] (qs "JOHN") = some [[0, 3]]
      ∧ documentOrderDialogues [sceneWith plainScene
        [paragraph TextParagraphType.Character "JOHN",
        .group beatGroup [paragraph TextParagraphType.Action "He waits."],
        paragraph TextParagraphType.Dialogue "Hello"]] (qs "JOHN") = [] := by
  refine ⟨?_, ?_, ?_, ?_⟩ <;> decide

/-! ## C7: findCharactersFromText -/

theorem mem_foldl_insert (l : List QString) : ∀ (s : Finset QString) (c : QString),
    c ∈ l.foldl (fun acc x => insert x acc) s ↔ c ∈ s ∨ c ∈ l := by
  induction l with
  | nil => intro s c; simp
  | cons x xs ih =>
    intro s c
    simp only [List.foldl_cons, ih, Finset.mem_insert, List.mem_cons]
    tauto

mutual
theorem mem_findCharactersItem :
    ∀ (item : Item) (acc : Finset QString) (c : QString),
      c ∈ findCharactersItem item acc ↔ c ∈ acc ∨ ∃ t ∈ textLeaves item, c ∈ textCharacters t
  | .folder cs, acc, c => by
    simpa [findCharactersItem, textLeaves] using mem_findCharacters cs acc c
  | .group _ cs, acc, c => by
    simpa [findCharactersItem, textLeaves] using mem_findCharacters cs acc c
  | .text t, acc, c => by
    simp [findCharactersItem, textLeaves, mem_foldl_insert]
theorem mem_findCharacters :
    ∀ (items : List Item) (acc : Finset QString) (c : QString),
      c ∈ findCharacters items acc
        ↔ c ∈ acc ∨ ∃ t ∈ textLeavesList items, c ∈ textCharacters t
  | [], acc, c => by simp [findCharacters, textLeavesList]
  | x :: xs, acc, c => by
    simp only [findCharacters, textLeavesList, List.mem_append]
    rw [mem_findCharacters xs, mem_findCharactersItem x]
    constructor
    · rintro ((h | ⟨t, ht, hc⟩) | ⟨t, ht, hc⟩)
      · exact Or.inl h
      · exact Or.inr ⟨t, Or.inl ht, hc⟩
      · exact Or.inr ⟨t, Or.inr ht, hc⟩
    · rintro (h | ⟨t, ht | ht, hc⟩)
      · exact Or.inl (Or.inl h)
      · exact Or.inl (Or.inr ⟨t, ht, hc⟩)
      · exact Or.inr ⟨t, ht, hc⟩
end

theorem mem_textCharacters (t : TextData) (c : QString) :
    c ∈ textCharacters t ↔
      (t.paragraphType = TextParagraphType.Character ∧ c = NovelCharacterParser.name t.text)
      ∨ (t.paragraphType = TextParagraphType.SceneCharacters
          ∧ c ∈ NovelSceneCharactersParser.characters t.text) := by
  unfold textCharacters
  by_cases h1 : t.paragraphType = TextParagraphType.SceneCharacters
  · simp [h1]
  · by_cases h2 : t.paragraphType = TextParagraphType.Character
    · simp [h2]
    · simp [h1, h2]

/-- C7: `findCharactersFromText` returns exactly the parsed names of the
Character paragraphs and the elements of the parsed lists of the
SceneCharacters paragraphs, over the text paragraphs at any depth; so two
trees with the same text paragraphs give the same set, whatever the order or
nesting of the paragraphs. -/
theorem findCharactersFromText_exact :
    (∀ (rootChildren : List Item) (c : QString),
      c ∈ findCharactersFromText rootChildren ↔
        ∃ t ∈ textLeavesList rootChildren,
          (t.paragraphType = TextParagraphType.Character
              ∧ c = NovelCharacterParser.name t.text)
            ∨ (t.paragraphType = TextParagraphType.SceneCharacters
              ∧ c ∈ NovelSceneCharactersParser.characters t.text))
    ∧ (∀ first second : List Item,
        (∀ t, t ∈ textLeavesList first ↔ t ∈ textLeavesList second) →
        findCharactersFromText first = findCharactersFromText second) := by
  have key : ∀ (rootChildren : List Item) (c : QString),
      c ∈ findCharactersFromText rootChildren ↔
        ∃ t ∈ textLeavesList rootChildren, c ∈ textCharacters t := by
    intro rootChildren c
    simp [findCharactersFromText, mem_findCharacters]
  constructor
  · intro rootChildren c
    rw [key]
    constructor
    · rintro ⟨t, ht, hc⟩
      exact ⟨t, ht, (mem_textCharacters t c).1 hc⟩
    · rintro ⟨t, ht, hc⟩
      exact ⟨t, ht, (mem_textCharacters t c).2 hc⟩
  · intro first second h
    ext c
    rw [key, key]
    constructor
    · rintro ⟨t, ht, hc⟩
      exact ⟨t, (h t).1 ht, hc⟩
    · rintro ⟨t, ht, hc⟩
      exact ⟨t, (h t).2 ht, hc⟩

/-! ## C8, C9: updateCharacterName on a cue and on a list of characters -/

/-- C8 fails on the code: the Character paragraph " JOHN (V.O.)" has the
parsed name "JOHN", yet renaming JOHN to MARY turns it into "MARYN (V.O.)",
whose parsed name is "MARYN": the code deletes the first four characters of
the text, which are not the name when the text starts with white space. -/
theorem updateCharacterName_leading_space :
    NovelCharacterParser.name (qs " JOHN (V.O.)") = smartToUpper (qs "JOHN")
      ∧ updateCharacterName 1 (qs "JOHN") (qs "MARY")
          [sceneWith plainScene [paragraph TextParagraphType.Character " JOHN (V.O.)"]]
        = some [sceneWith plainScene [paragraph TextParagraphType.Character "MARYN (V.O.)"]]
      ∧ NovelCharacterParser.name (qs "MARYN (V.O.)") = qs "MARYN"
      ∧ NovelCharacterParser.name (qs "MARYN (V.O.)") ≠ NovelCharacterParser.name (qs "MARY") := by
  exact ⟨by decide, by rfl, by decide, by decide⟩

theorem sceneCharactersLoop_annabeth : ∀ fuel : Nat,
    sceneCharactersLoop (qs "ANNA") (qs "MARY") fuel (qs "ANNABETH, ANNA") 0 = none := by
  intro fuel
  induction fuel with
  | zero => rfl
  | succ fuel ih =>
    have step : sceneCharactersLoop (qs "ANNA") (qs "MARY") (fuel + 1) (qs "ANNABETH, ANNA") 0
        = sceneCharactersLoop (qs "ANNA") (qs "MARY") fuel (qs "ANNABETH, ANNA") 0 := by
      rfl
    rw [step, ih]

/-- C9 fails on the code: on the SceneCharacters paragraph "ANNABETH, ANNA"
the loop that looks for ANNA never ends.  The first occurrence (inside
ANNABETH) fails the check of its right side and the search is repeated from
the same index, so whatever the number of iterations allowed the loop is still
running. -/
theorem updateCharacterName_never_ends : ∀ fuel : Nat,
    updateCharacterName fuel (qs "ANNA") (qs "MARY")
      [sceneWith plainScene [paragraph TextParagraphType.SceneCharacters "ANNABETH, ANNA"]]
        = none := by
  intro fuel
  have hup : smartToUpper (qs "ANNA") = qs "ANNA" := by decide
  have hin : qs "ANNA" ∈ NovelSceneCharactersParser.characters (qs "ANNABETH, ANNA") := by
    decide
  have hidx : indexOf (smartToUpper (qs "ANNABETH, ANNA")) (qs "ANNA") 0 = 0 := by decide
  have hhead : updateCharacterText fuel (qs "ANNA") (qs "MARY") TextParagraphType.SceneHeading
      (qs "INT. HOUSE - DAY") = some (qs "INT. HOUSE - DAY") := by
    have hc : containsIgnoreCase (qs "INT. HOUSE - DAY") (qs "ANNA") = false := by decide
    simp [updateCharacterText, hc]
  have hlist : updateCharacterText fuel (qs "ANNA") (qs "MARY")
      TextParagraphType.SceneCharacters (qs "ANNABETH, ANNA") = none := by
    simp only [updateCharacterText, hin, and_self, if_true, hidx, sceneCharactersLoop_annabeth]
  simp only [updateCharacterName, updateCharacterBlock, updateCharacterItem, sceneWith,
    paragraph, hup, hhead, hlist, Option.map_none', Option.map_some']

/-! ## C5: a name inside a longer word -/

/-- C5 fails on the code: in "ANNAËLLE" the name ANNA stands inside a longer
word, yet renaming ANNA to MARY turns the paragraph (an Action paragraph, and
a Character cue as well) into "MARYËLLE"; and in the text x, LONG S (U+017F), a, m
the name SAM is found and the text becomes "xMary".  The matcher
`\b(name)\b` takes only ASCII letters, digits and the underscore for word
characters, so it sees a word boundary next to a letter outside ASCII.  The
three texts the claim names, "ANNABETH", "SUSANNA" and the list
"ANNABETH, SUSANNA", are left as they are. -/
theorem updateCharacterName_alters_longer_word :
    updateCharacterName 3 (qs "ANNA") (qs "MARY")
        [sceneWith plainScene [paragraph TextParagraphType.Action "ANNAËLLE"]]
      = some [sceneWith plainScene [paragraph TextParagraphType.Action "MARYËLLE"]]
    ∧ updateCharacterText 3 (smartToUpper (qs "ANNA")) (qs "MARY")
        TextParagraphType.Character (qs "ANNAËLLE") = some (qs "MARYËLLE")
    ∧ updateCharacterText 3 (smartToUpper (qs "SAM")) (qs "Mary")
        TextParagraphType.Action (qs "x\u017Fam") = some (qs "xMary")
    ∧ updateCharacterText 3 (smartToUpper (qs "ANNA")) (qs "MARY")
        TextParagraphType.Character (qs "ANNABETH") = some (qs "ANNABETH")
    ∧ updateCharacterText 3 (smartToUpper (qs "ANNA")) (qs "MARY")
        TextParagraphType.Action (qs "SUSANNA") = some (qs "SUSANNA")
    ∧ updateCharacterText 3 (smartToUpper (qs "ANNA")) (qs "MARY")
        TextParagraphType.SceneCharacters (qs "ANNABETH, SUSANNA")
          = some (qs "ANNABETH, SUSANNA") := by
  refine ⟨by rfl, by decide, by decide, by decide, by decide, by decide⟩

/-! ## simplified: normal form, idempotence, upper-casing -/

theorem space_ne_of_not_isSpace (c : Char) (h : isSpace c = false) : c ≠ ' ' := by
  intro e; rw [e] at h; exact absurd h (by decide)

theorem simplifiedGo_normal (s : QString) :
    normGo false (simplifiedGo true false s) = true
      ∧ (simplifiedGo true true s = []
          ∨ ∃ r, simplifiedGo true true s = ' ' :: r ∧ normGo true r = true)
      ∧ (simplifiedGo false false s = [] ∨ normGo true (simplifiedGo false false s) = true) := by
  induction s with
  | nil => simp [simplifiedGo, normGo]
  | cons c cs ih =>
    obtain ⟨a, b, d⟩ := ih
    by_cases hc : isSpace c = true
    · simp only [simplifiedGo, hc, if_true]
      refine ⟨?_, b, d⟩
      rcases b with b | ⟨r, hr, hn⟩
      · rw [b]; rfl
      · rw [hr]; simp [normGo, hn]
    · have hc2 : isSpace c = false := by simpa using hc
      have hne := space_ne_of_not_isSpace c hc2
      simp only [simplifiedGo, hc2, Bool.false_eq_true, if_false, if_true]
      refine ⟨?_, Or.inr ⟨_, rfl, ?_⟩, Or.inr ?_⟩ <;> simp [normGo, hne, hc2, a]

theorem simplifiedGo_of_normal (s : QString) :
    (normGo false s = true → simplifiedGo true false s = s)
    ∧ (normGo true s = true → simplifiedGo true true s = ' ' :: s) := by
  induction s with
  | nil => simp [normGo, simplifiedGo]
  | cons a s ih =>
    constructor
    · intro h
      simp only [normGo] at h
      by_cases ha : a = ' '
      · rw [if_pos ha] at h
        simp only [Bool.not_false, Bool.true_and] at h
        subst ha
        simp only [simplifiedGo, space_isSpace, if_true]
        exact ih.2 h
      · rw [if_neg ha] at h
        simp only [Bool.and_eq_true, Bool.not_eq_true'] at h
        simp only [simplifiedGo, h.1, Bool.false_eq_true, if_false]
        rw [ih.1 h.2]
    · intro h
      simp only [normGo] at h
      by_cases ha : a = ' '
      · rw [if_pos ha] at h
        simp at h
      · rw [if_neg ha] at h
        simp only [Bool.and_eq_true, Bool.not_eq_true'] at h
        simp only [simplifiedGo, h.1, Bool.false_eq_true, if_false, if_true]
        rw [ih.1 h.2]

theorem simplified_of_normal (s : QString) (h : normGo true s = true) : simplified s = s := by
  cases s with
  | nil => rfl
  | cons a s =>
    simp only [normGo] at h
    by_cases ha : a = ' '
    · rw [if_pos ha] at h
      simp at h
    · rw [if_neg ha] at h
      simp only [Bool.and_eq_true, Bool.not_eq_true'] at h
      simp only [simplified, simplifiedGo, h.1, Bool.false_eq_true, if_false]
      rw [(simplifiedGo_of_normal s).1 h.2]

theorem simplified_idem (s : QString) : simplified (simplified s) = simplified s := by
  rcases (simplifiedGo_normal s).2.2 with h | h
  · unfold simplified; rw [h]; rfl
  · exact simplified_of_normal _ h

theorem isSimplified_simplified (s : QString) : isSimplified (simplified s) = true := by
  rcases (simplifiedGo_normal s).2.2 with h | h
  · simp [isSimplified, simplified, h]
  · simp [isSimplified, simplified, h]

theorem upper_space : smartToUpperChar ' ' = ' ' := by decide

theorem simplifiedGo_upper (s : QString) : ∀ started pending,
    simplifiedGo started pending (smartToUpper s)
      = smartToUpper (simplifiedGo started pending s) := by
  induction s with
  | nil => intro _ _; rfl
  | cons c cs ih =>
    intro started pending
    simp only [smartToUpper, List.map_cons, simplifiedGo, isSpace_upper] at ih ⊢
    split
    · exact ih _ _
    · split
      · simp [ih, upper_space]
      · simp [ih]

theorem simplified_upper (s : QString) :
    simplified (smartToUpper s) = smartToUpper (simplified s) :=
  simplifiedGo_upper s false false

theorem normGo_upper (s : QString) : ∀ gap, normGo gap (smartToUpper s) = normGo gap s := by
  induction s with
  | nil => intro _; rfl
  | cons c cs ih =>
    intro gap
    simp only [smartToUpper, List.map_cons, normGo, isSpace_upper] at ih ⊢
    by_cases hc : c = ' '
    · rw [if_pos hc, if_pos ((upper_eq_space c).2 hc), ih]
    · rw [if_neg hc, if_neg (fun e => hc ((upper_eq_space c).1 e)), ih]

theorem isSimplified_upper (s : QString) (h : isSimplified s = true) :
    isSimplified (smartToUpper s) = true := by
  cases s with
  | nil => rfl
  | cons c cs =>
    simp only [isSimplified, List.isEmpty_cons, Bool.false_or] at h ⊢
    have := normGo_upper (c :: cs) true
    simp only [smartToUpper, List.map_cons] at this ⊢
    rw [this]; exact h

theorem mem_simplifiedGo (s : QString) : ∀ started pending (c : Char),
    c ∈ simplifiedGo started pending s → c ∈ s ∨ c = ' ' := by
  induction s with
  | nil => intro _ _ c h; simp [simplifiedGo] at h
  | cons a s ih =>
    intro started pending c h
    simp only [simplifiedGo] at h
    split at h
    · rcases ih _ _ c h with h | h
      · exact Or.inl (List.mem_cons_of_mem _ h)
      · exact Or.inr h
    · split at h
      · simp only [List.mem_cons] at h
        rcases h with h | h | h
        · exact Or.inr h
        · exact Or.inl (by simp [h])
        · rcases ih _ _ c h with h | h
          · exact Or.inl (List.mem_cons_of_mem _ h)
          · exact Or.inr h
      · simp only [List.mem_cons] at h
        rcases h with h | h
        · exact Or.inl (by simp [h])
        · rcases ih _ _ c h with h | h
          · exact Or.inl (List.mem_cons_of_mem _ h)
          · exact Or.inr h

theorem not_mem_simplified (s : QString) (c : Char) (hc : c ≠ ' ') (h : c ∉ s) :
    c ∉ simplified s := by
  intro hm
  rcases mem_simplifiedGo s false false c hm with h2 | h2
  · exact h h2
  · exact hc h2

theorem upper_eq_fixed (c d : Char) (hd : ¬ (65 ≤ d.toNat ∧ d.toNat ≤ 90))
    (hd2 : ¬ (97 ≤ d.toNat ∧ d.toNat ≤ 122)) (h : smartToUpperChar c = d) : c = d := by
  rw [char_eq_iff] at h ⊢
  rw [toNat_upper] at h
  split at h <;> omega

theorem not_mem_upper (s : QString) (d : Char) (hd : ¬ (65 ≤ d.toNat ∧ d.toNat ≤ 90))
    (hd2 : ¬ (97 ≤ d.toNat ∧ d.toNat ≤ 122)) (h : d ∉ s) : d ∉ smartToUpper s := by
  intro hm
  simp only [smartToUpper, List.mem_map] at hm
  obtain ⟨c, hc, hcd⟩ := hm
  rw [upper_eq_fixed c d hd hd2 hcd] at hc
  exact h hc

/-! ## C13, C14, C16, C17: the parsers on texts with and without delimiters -/

theorem removeRxStateGo_line (s : QString) (h : '\n' ∉ s) :
    removeRxStateGo true s = []
      ∧ removeRxStateGo false s = s.takeWhile (fun c => c != '(') := by
  induction s with
  | nil => simp [removeRxStateGo]
  | cons c cs ih =>
    simp only [List.mem_cons, not_or] at h
    obtain ⟨i1, i2⟩ := ih h.2
    constructor
    · simp only [removeRxStateGo, Ne.symm h.1, if_false]
      exact i1
    · by_cases hc : c = '('
      · subst hc
        simp [removeRxStateGo, i1, List.takeWhile_cons]
      · simp [removeRxStateGo, hc, i2, List.takeWhile_cons]

theorem not_mem_takeWhile_paren (s : QString) : '(' ∉ s.takeWhile (fun c => c != '(') := by
  intro h
  have := List.mem_takeWhile_imp h
  simp at this

/-- C13: for a text without a line feed, `name(text)` is
`smartToUpper(simplified(p))` with `p` the part of the text before its first
`(` (the whole text when there is none); so the name holds no `(` and has no
leading, trailing or repeated white space. -/
theorem name_of_line (text : QString) (hline : '\n' ∉ text) :
    NovelCharacterParser.name text
        = smartToUpper (simplified (text.takeWhile (fun c => c != '(')))
      ∧ '(' ∉ NovelCharacterParser.name text
      ∧ isSimplified (NovelCharacterParser.name text) = true
      ∧ simplified (NovelCharacterParser.name text) = NovelCharacterParser.name text := by
  have e : NovelCharacterParser.name text
      = smartToUpper (simplified (text.takeWhile (fun c => c != '('))) := by
    simp only [NovelCharacterParser.name, removeRxState, (removeRxStateGo_line text hline).2]
  rw [e]
  refine ⟨rfl, ?_, ?_, ?_⟩
  · apply not_mem_upper _ _ (by decide) (by decide)
    exact not_mem_simplified _ _ (by decide) (not_mem_takeWhile_paren text)
  · exact isSimplified_upper _ (isSimplified_simplified _)
  · rw [simplified_upper, simplified_idem]

/-- C13 at "  john   smith (V.O.)": the name is "JOHN SMITH". -/
theorem name_of_line_witness :
    NovelCharacterParser.name (qs "  john   smith (V.O.)") = qs "JOHN SMITH"
      ∧ '(' ∉ NovelCharacterParser.name (qs "  john   smith (V.O.)")
      ∧ isSimplified (NovelCharacterParser.name (qs "  john   smith (V.O.)")) = true
      ∧ simplified (NovelCharacterParser.name (qs "  john   smith (V.O.)"))
          = NovelCharacterParser.name (qs "  john   smith (V.O.)") :=
  name_of_line (qs "  john   smith (V.O.)") (by decide)

theorem removeGo_single (c : Char) (s : QString) :
    removeGo [c] 0 s = s.filter (fun x => x != c) := by
  induction s with
  | nil => rfl
  | cons a s ih =>
    by_cases h : a = c
    · subst h
      simp [removeGo, List.isPrefixOf, ih]
    · have h2 : (c == a) = false := by simpa using Ne.symm h
      simp [removeGo, List.isPrefixOf, h2, ih, h]

theorem remove_single (c : Char) (s : QString) :
    remove s [c] = s.filter (fun x => x != c) := by
  simp [remove, removeGo_single]

theorem takeWhile_line (s : QString) (h : '\n' ∉ s) :
    s.takeWhile (fun c => c != '\n') = s := by
  induction s with
  | nil => rfl
  | cons c cs ih =>
    simp only [List.mem_cons, not_or] at h
    simp [List.takeWhile_cons, Ne.symm h.1, ih h.2]

theorem dropWhile_paren (s : QString) (h : '(' ∈ s) :
    ∃ rest, s.dropWhile (fun c => c != '(') = '(' :: rest := by
  induction s with
  | nil => cases h
  | cons c cs ih =>
    by_cases hc : c = '('
    · subst hc
      exact ⟨cs, by simp [List.dropWhile_cons]⟩
    · have : '(' ∈ cs := by
        rcases List.mem_cons.1 h with e | e
        · exact absurd e.symm hc
        · exact e
      obtain ⟨rest, hr⟩ := ih this
      exact ⟨rest, by simp [List.dropWhile_cons, hc, hr]⟩

theorem not_mem_dropWhile (s : QString) (d : Char) (p : Char → Bool) (h : d ∉ s) :
    d ∉ s.dropWhile p := fun hm => h ((List.dropWhile_sublist p).subset hm)

/-- C14: for a text without a line feed that holds a `(`, `extension(text)` is
`simplified(smartToUpper(s))`, where `s` is the part of the text after its
first `(` with every `(` and `)` deleted; the result holds no parenthesis. -/
theorem extension_of_line (text : QString) (hline : '\n' ∉ text) (hparen : '(' ∈ text) :
    NovelCharacterParser.extension text
        = simplified (smartToUpper
            (((text.dropWhile (fun c => c != '(')).drop 1).filter
              (fun c => c != '(' && c != ')')))
      ∧ '(' ∉ NovelCharacterParser.extension text
      ∧ ')' ∉ NovelCharacterParser.extension text := by
  obtain ⟨rest, hr⟩ := dropWhile_paren text hparen
  have hl : '\n' ∉ '(' :: rest := by
    rw [← hr]; exact not_mem_dropWhile text _ _ hline
  have hq1 : qs "(" = ['('] := rfl
  have hq2 : qs ")" = [')'] := rfl
  have e : NovelCharacterParser.extension text
      = simplified (smartToUpper (rest.filter (fun c => c != '(' && c != ')'))) := by
    simp only [NovelCharacterParser.extension, matchRxState, hr, takeWhile_line _ hl, hq1, hq2,
      remove_single, List.filter_filter]
    simp [List.filter, Bool.and_comm]
  rw [e, hr]
  refine ⟨by simp, ?_, ?_⟩
  · apply not_mem_simplified _ _ (by decide)
    apply not_mem_upper _ _ (by decide) (by decide)
    simp [List.mem_filter]
  · apply not_mem_simplified _ _ (by decide)
    apply not_mem_upper _ _ (by decide) (by decide)
    simp [List.mem_filter]

/-- C14 at "JOHN (V.O.)" and "JOHN (v.o.) (cont'd)": the extensions are "V.O."
and "V.O. CONT'D". -/
theorem extension_of_line_witness :
    NovelCharacterParser.extension (qs "JOHN (V.O.)") = qs "V.O."
      ∧ NovelCharacterParser.extension (qs "JOHN (v.o.) (cont'd)") = qs "V.O. CONT'D"
      ∧ '(' ∉ NovelCharacterParser.extension (qs "JOHN (v.o.) (cont'd)")
      ∧ ')' ∉ NovelCharacterParser.extension (qs "JOHN (v.o.) (cont'd)") :=
  ⟨(extension_of_line (qs "JOHN (V.O.)") (by decide) (by decide)).1,
   (extension_of_line (qs "JOHN (v.o.) (cont'd)") (by decide) (by decide)).1,
   (extension_of_line (qs "JOHN (v.o.) (cont'd)") (by decide) (by decide)).2⟩

theorem noStart_of_indexOfGo_none (sub : QString) : ∀ (s : QString) (pos : Nat),
    indexOfGo sub s pos = none → NoStart sub s [] := by
  intro s
  induction s with
  | nil => intro _ _; trivial
  | cons c cs ih =>
    intro pos h
    simp only [indexOfGo] at h
    split at h
    · cases h
    · rename_i hp
      exact ⟨by rw [List.append_nil]; exact Bool.eq_false_iff.2 hp, ih _ h⟩

theorem noStart_of_not_contains (s sub : QString) (h : contains s sub = false) :
    NoStart sub s [] := by
  simp only [contains, indexOf, Nat.not_lt_zero, if_false, List.drop_zero, bne_eq_false_iff_eq]
    at h
  cases hi : indexOfGo sub s 0 with
  | none => exact noStart_of_indexOfGo_none sub s 0 hi
  | some i =>
    rw [hi] at h
    simp only at h
    omega

theorem split_of_not_contains (s sub : QString) (h : contains s sub = false) :
    split s sub = [s] :=
  split_none sub s (noStart_of_not_contains s sub h)

theorem first_occurrence (sub : QString) (hne : sub ≠ []) : ∀ (s : QString) (pos p : Nat),
    indexOfGo sub s pos = some p →
      ∃ a r, s = a ++ sub ++ r ∧ NoStart sub a (sub ++ r) := by
  intro s
  induction s with
  | nil =>
    intro pos p h
    cases sub with
    | nil => exact absurd rfl hne
    | cons x xs => simp [indexOfGo] at h
  | cons c cs ih =>
    intro pos p h
    simp only [indexOfGo] at h
    split at h
    · rename_i hp
      refine ⟨[], (c :: cs).drop sub.length, ?_, trivial⟩
      have := List.prefix_iff_eq_append.1 (List.isPrefixOf_iff_prefix.1 hp)
      simpa using this.symm
    · rename_i hp
      obtain ⟨a, r, hs, hn⟩ := ih _ _ h
      refine ⟨c :: a, r, by simp [hs], ?_, hn⟩
      rw [← List.append_assoc, ← hs]
      exact Bool.eq_false_iff.2 hp

theorem first_occurrence_of_contains (s sub : QString) (hne : sub ≠ [])
    (h : contains s sub = true) : ∃ a r, s = a ++ sub ++ r ∧ NoStart sub a (sub ++ r) := by
  simp only [contains, indexOf, Nat.not_lt_zero, if_false, List.drop_zero] at h
  cases hi : indexOfGo sub s 0 with
  | none => rw [hi] at h; simp at h
  | some i => exact first_occurrence sub hne s 0 i hi

/-- C16: in forced mode nothing is stripped: a text that contains ". " splits
at the first ". " into `a ++ ". " ++ r` and `location(text, true)` is
`simplified(smartToUpper(r))`, the whole remainder with its time suffix. -/
theorem location_forced (text : QString) (hdot : contains text (qs ". ") = true) :
    ∃ a r, text = a ++ qs ". " ++ r ∧ NoStart (qs ". ") a (qs ". " ++ r)
      ∧ NovelSceneHeadingParser.location text true = simplified (smartToUpper r) := by
  obtain ⟨a, r, hs, hn⟩ := first_occurrence_of_contains text (qs ". ") (by simp [qs_dot]) hdot
  refine ⟨a, r, hs, hn, ?_⟩
  have hlen := split_length_pos r (qs ". ")
  have h1 : (a :: split r (qs ". ")).length > 1 := by
    simp only [List.length_cons]; omega
  subst hs
  simp only [NovelSceneHeadingParser.location,
    split_append_sep (qs ". ") a r (by simp [qs_dot]) hn,
    indexOf_append_sep (qs ". ") a r (by simp [qs_dot]) hn, mid_after_dot, h1, if_true,
    Bool.not_true, Bool.false_eq_true, if_false]

/-- C16 at "INT. KITCHEN -- NIGHT": the forced location is "KITCHEN -- NIGHT". -/
theorem location_forced_witness :
    (∃ a r, qs "INT. KITCHEN -- NIGHT" = a ++ qs ". " ++ r
        ∧ NoStart (qs ". ") a (qs ". " ++ r)
        ∧ NovelSceneHeadingParser.location (qs "INT. KITCHEN -- NIGHT") true
          = simplified (smartToUpper r))
      ∧ NovelSceneHeadingParser.location (qs "INT. KITCHEN -- NIGHT") true
          = qs "KITCHEN -- NIGHT" :=
  ⟨location_forced (qs "INT. KITCHEN -- NIGHT") (by decide), by decide⟩

theorem dropWhile_no_paren (s : QString) (h : '(' ∉ s) :
    s.dropWhile (fun c => c != '(') = [] := by
  induction s with
  | nil => rfl
  | cons c cs ih =>
    simp only [List.mem_cons, not_or] at h
    simp [List.dropWhile_cons, Ne.symm h.1, ih h.2]

/-- C17: a text that lacks the delimiters gives an empty extraction: without
". " the location is empty in both modes, without " -- " and " - " the scene
time is empty, and without "(" the extension is empty. -/
theorem parsers_without_delimiters :
    (∀ (text : QString) (force : Bool), contains text (qs ". ") = false →
      NovelSceneHeadingParser.location text force = [])
    ∧ (∀ text : QString, contains text (qs " -- ") = false → contains text (qs " - ") = false →
      NovelSceneHeadingParser.sceneTime text = [])
    ∧ (∀ text : QString, '(' ∉ text → NovelCharacterParser.extension text = []) := by
  refine ⟨?_, ?_, ?_⟩
  · intro text force h
    simp [NovelSceneHeadingParser.location, split_of_not_contains text _ h, smartToUpper,
      simplified, simplifiedGo]
  · intro text h1 h2
    simp [NovelSceneHeadingParser.sceneTime, split_of_not_contains text _ h1,
      split_of_not_contains text _ h2, smartToUpper, simplified, simplifiedGo]
  · intro text h
    simp [NovelCharacterParser.extension, matchRxState, dropWhile_no_paren text h, smartToUpper,
      simplified, simplifiedGo]

/-! ## C12: dialogue numbers -/

theorem numberScene_dialogueNumber (ops : NumberOps) (g : GroupData) (cs : List Item)
    (st : NumberingState) : (numberScene ops g cs st).2.dialogueNumber = st.dialogueNumber := by
  unfold numberScene
  simp only
  split_ifs <;> rfl

theorem numberParagraph_leaf (t : TextData) (st : NumberingState) :
    [(numberParagraph t st).1] = (numberLeaves [t] st.dialogueNumber).1
      ∧ (numberParagraph t st).2.dialogueNumber = (numberLeaves [t] st.dialogueNumber).2 := by
  by_cases h1 : t.paragraphType = TextParagraphType.Character
  · by_cases h2 : t.isCorrection = true
    · simp [numberParagraph, numberLeaves, isCue, h1, h2]
    · simp [numberParagraph, numberLeaves, isCue, h1, h2]
  · simp [numberParagraph, numberLeaves, isCue, h1]

theorem numberLeaves_append (a b : List TextData) : ∀ n : Nat,
    numberLeaves (a ++ b) n
      = ((numberLeaves a n).1 ++ (numberLeaves b (numberLeaves a n).2).1,
         (numberLeaves b (numberLeaves a n).2).2) := by
  induction a with
  | nil => intro n; simp [numberLeaves]
  | cons t ts ih =>
    intro n
    simp only [List.cons_append, numberLeaves]
    split <;> simp [ih]

theorem numberLeaves_length (a : List TextData) : ∀ n : Nat,
    (numberLeaves a n).1.length = a.length := by
  induction a with
  | nil => intro n; rfl
  | cons t ts ih =>
    intro n
    simp only [numberLeaves]
    split <;> simp [ih]

theorem numberLeaves_counter (a : List TextData) : ∀ n : Nat,
    (numberLeaves a n).2 = n + (a.filter isCue).length := by
  induction a with
  | nil => intro n; rfl
  | cons t ts ih =>
    intro n
    simp only [numberLeaves, List.filter_cons]
    split
    · simp only [ih, List.length_cons]; omega
    · simp only [ih]

mutual
theorem updateItem_leaves (ops : NumberOps) :
    ∀ (item : Item) (st : NumberingState),
      textLeaves (updateItemNumbering ops item st).1
          = (numberLeaves (textLeaves item) st.dialogueNumber).1
      ∧ (updateItemNumbering ops item st).2.dialogueNumber
          = (numberLeaves (textLeaves item) st.dialogueNumber).2
  | .folder cs, st => by
    simpa [updateItemNumbering, textLeaves] using updateChildren_leaves ops cs st
  | .group g cs, st => by
    obtain ⟨h1, h2⟩ := updateChildren_leaves ops cs st
    simp only [updateItemNumbering, textLeaves]
    split
    · simp only [textLeaves, numberScene_dialogueNumber]
      exact ⟨h1, h2⟩
    · exact ⟨h1, h2⟩
  | .text t, st => by
    simp only [updateItemNumbering, textLeaves]
    exact numberParagraph_leaf t st
theorem updateChildren_leaves (ops : NumberOps) :
    ∀ (items : List Item) (st : NumberingState),
      textLeavesList (updateChildNumbering ops items st).1
          = (numberLeaves (textLeavesList items) st.dialogueNumber).1
      ∧ (updateChildNumbering ops items st).2.dialogueNumber
          = (numberLeaves (textLeavesList items) st.dialogueNumber).2
  | [], st => by simp [updateChildNumbering, textLeavesList, numberLeaves]
  | c :: rest, st => by
    obtain ⟨h1, h2⟩ := updateItem_leaves ops c st
    obtain ⟨k1, k2⟩ := updateChildren_leaves ops rest (updateItemNumbering ops c st).2
    simp only [updateChildNumbering, textLeavesList, numberLeaves_append]
    rw [h1, k1, k2, h2]
    exact ⟨rfl, rfl⟩
end

theorem numberLeaves_get (pre : List TextData) (t : TextData) (post : List TextData) (n : Nat) :
    (numberLeaves (pre ++ t :: post) n).1[pre.length]?
      = some (if isCue t = true then { t with number := some (n + (pre.filter isCue).length) }
              else t) := by
  rw [numberLeaves_append]
  simp only
  rw [List.getElem?_append_right (by rw [numberLeaves_length])]
  simp only [numberLeaves_length, Nat.sub_self, numberLeaves, numberLeaves_counter]
  split <;> simp

/-- C12: after `updateNumbering`, whatever the group operations and the scenes
are, the text paragraphs stand in the same document order and the paragraph
that follows the paragraphs `pre` is: when it is a Character paragraph that is
not a correction, itself with the dialogue number `k`, where `k - 1` is the
number of such paragraphs in `pre`; otherwise itself, unchanged. -/
theorem dialogueNumbers (ops : NumberOps) (rootChildren : List Item) (pre : List TextData)
    (t : TextData) (post : List TextData)
    (hsplit : textLeavesList rootChildren = pre ++ t :: post) :
    (textLeavesList (updateNumbering ops (.folder rootChildren)).1.children)[pre.length]?
      = some (if isCue t = true then { t with number := some ((pre.filter isCue).length + 1) }
              else t) := by
  simp only [updateNumbering, Item.children]
  rw [(updateChildren_leaves ops rootChildren initialNumbering).1, hsplit, numberLeaves_get]
  simp [initialNumbering, Nat.add_comm]

/-- C12 at a scene with the cue "JOHN", a correction cue and the cue "MARY":
MARY is the second cue and gets the dialogue number 2. -/
theorem dialogueNumbers_witness :
    (textLeavesList (updateNumbering storeAll (.folder [sceneWith customScene
        [paragraph TextParagraphType.Character "JOHN",
         correction TextParagraphType.Character "JOHN (CONT)",
         paragraph TextParagraphType.Character "MARY"]])).1.children)[3]?
      = some { paragraphType := TextParagraphType.Character, text := qs "MARY",
               isCorrection := false, number := some 2 } :=
  dialogueNumbers storeAll [sceneWith customScene
      [paragraph TextParagraphType.Character "JOHN",
       correction TextParagraphType.Character "JOHN (CONT)",
       paragraph TextParagraphType.Character "MARY"]]
    [{ paragraphType := TextParagraphType.SceneHeading, text := qs "INT. HOUSE - DAY",
       isCorrection := false, number := none },
     { paragraphType := TextParagraphType.Character, text := qs "JOHN",
       isCorrection := false, number := none },
     { paragraphType := TextParagraphType.Character, text := qs "JOHN (CONT)",
       isCorrection := true, number := none }]
    { paragraphType := TextParagraphType.Character, text := qs "MARY",
      isCorrection := false, number := none } [] rfl

/-! ## C11: correction paragraphs and mining -/

mutual
theorem mem_findLocationsItem :
    ∀ (item : Item) (acc : Finset QString) (c : QString),
      c ∈ findLocationsItem item acc ↔ c ∈ acc ∨ ∃ t ∈ textLeaves item,
        t.paragraphType = TextParagraphType.SceneHeading
          ∧ c = NovelSceneHeadingParser.location t.text false
  | .folder cs, acc, c => by
    simpa [findLocationsItem, textLeaves] using mem_findLocations cs acc c
  | .group _ cs, acc, c => by
    simpa [findLocationsItem, textLeaves] using mem_findLocations cs acc c
  | .text t, acc, c => by
    simp only [findLocationsItem, textLeaves, List.mem_singleton, exists_eq_left]
    split
    · rename_i h
      simp only [Finset.mem_insert, h, true_and]
      tauto
    · rename_i h
      simp [h]
theorem mem_findLocations :
    ∀ (items : List Item) (acc : Finset QString) (c : QString),
      c ∈ findLocations items acc ↔ c ∈ acc ∨ ∃ t ∈ textLeavesList items,
        t.paragraphType = TextParagraphType.SceneHeading
          ∧ c = NovelSceneHeadingParser.location t.text false
  | [], acc, c => by simp [findLocations, textLeavesList]
  | x :: xs, acc, c => by
    simp only [findLocations, textLeavesList, List.mem_append]
    rw [mem_findLocations xs, mem_findLocationsItem x]
    constructor
    · rintro ((h | ⟨t, ht, hc⟩) | ⟨t, ht, hc⟩)
      · exact Or.inl h
      · exact Or.inr ⟨t, Or.inl ht, hc⟩
      · exact Or.inr ⟨t, Or.inr ht, hc⟩
    · rintro (h | ⟨t, ht | ht, hc⟩)
      · exact Or.inl (Or.inl h)
      · exact Or.inl (Or.inr ⟨t, ht, hc⟩)
      · exact Or.inr ⟨t, ht, hc⟩
end

mutual
theorem leaves_removeCorrectionsItem :
    ∀ (item : Item) (t : TextData), t ∈ textLeaves (removeCorrectionsItem item) →
      t ∈ textLeaves item
  | .folder cs, t, h => by
    simp only [removeCorrectionsItem, textLeaves] at h ⊢
    exact leaves_removeCorrections cs t h
  | .group g cs, t, h => by
    simp only [removeCorrectionsItem, textLeaves] at h ⊢
    exact leaves_removeCorrections cs t h
  | .text t0, t, h => by simpa [removeCorrectionsItem] using h
theorem leaves_removeCorrections :
    ∀ (items : List Item) (t : TextData), t ∈ textLeavesList (removeCorrections items) →
      t ∈ textLeavesList items
  | [], t, h => by simp [removeCorrections, textLeavesList] at h
  | .text t0 :: cs, t, h => by
    simp only [removeCorrections] at h
    simp only [textLeavesList, textLeaves, List.mem_append, List.mem_singleton]
    split at h
    · exact Or.inr (leaves_removeCorrections cs t h)
    · simp only [textLeavesList, textLeaves, List.mem_append, List.mem_singleton] at h
      exact h.imp id (leaves_removeCorrections cs t)
  | .folder xs :: cs, t, h => by
    simp only [removeCorrections, textLeavesList, List.mem_append] at h ⊢
    exact h.imp (leaves_removeCorrectionsItem (.folder xs) t) (leaves_removeCorrections cs t)
  | .group g xs :: cs, t, h => by
    simp only [removeCorrections, textLeavesList, List.mem_append] at h ⊢
    exact h.imp (leaves_removeCorrectionsItem (.group g xs) t) (leaves_removeCorrections cs t)
end

/-- C11 (amended): mining does not look at the correction flag.  A location is
found exactly when some SceneHeading paragraph of the tree, correction or not,
parses to it (for the characters this is the statement of C7); so removing
the correction paragraphs can only take elements away: both results on the
tree without corrections are subsets of the results on the whole tree. -/
theorem mining_ignores_corrections (rootChildren : List Item) :
    (∀ c : QString, c ∈ findLocationsFromText rootChildren ↔
      ∃ t ∈ textLeavesList rootChildren, t.paragraphType = TextParagraphType.SceneHeading
        ∧ c = NovelSceneHeadingParser.location t.text false)
    ∧ findCharactersFromText (removeCorrections rootChildren)
        ⊆ findCharactersFromText rootChildren
    ∧ findLocationsFromText (removeCorrections rootChildren)
        ⊆ findLocationsFromText rootChildren := by
  refine ⟨?_, ?_, ?_⟩
  · intro c
    simp [findLocationsFromText, mem_findLocations]
  · intro c hc
    simp only [findCharactersFromText, mem_findCharacters, Finset.not_mem_empty, false_or]
      at hc ⊢
    obtain ⟨t, ht, h⟩ := hc
    exact ⟨t, leaves_removeCorrections rootChildren t ht, h⟩
  · intro c hc
    simp only [findLocationsFromText, mem_findLocations, Finset.not_mem_empty, false_or]
      at hc ⊢
    obtain ⟨t, ht, h⟩ := hc
    exact ⟨t, leaves_removeCorrections rootChildren t ht, h⟩

/-- C11 as stated fails: a correction Character paragraph "JOHN (CONT)" and a
correction SceneHeading paragraph "INT. ROOM - DAY" are mined: JOHN is among
the characters and ROOM among the locations, and neither is there once the
corrections are removed. -/
theorem mining_corrections_counterexample :
    qs "JOHN" ∈ findCharactersFromText [sceneWith plainScene
        [correction TextParagraphType.Character "JOHN (CONT)",
         correction TextParagraphType.SceneHeading "INT. ROOM - DAY"]]
      ∧ qs "JOHN" ∉ findCharactersFromText (removeCorrections [sceneWith plainScene
        [correction TextParagraphType.Character "JOHN (CONT)",
         correction TextParagraphType.SceneHeading "INT. ROOM - DAY"]])
      ∧ qs "ROOM" ∈ findLocationsFromText [sceneWith plainScene
        [correction TextParagraphType.Character "JOHN (CONT)",
         correction TextParagraphType.SceneHeading "INT. ROOM - DAY"]]
      ∧ qs "ROOM" ∉ findLocationsFromText (removeCorrections [sceneWith plainScene
        [correction TextParagraphType.Character "JOHN (CONT)",
         correction TextParagraphType.SceneHeading "INT. ROOM - DAY"]]) := by
  refine ⟨?_, ?_, ?_, ?_⟩ <;> decide

/-! ## C18: itemsColors -/

theorem mapEmplace_keyZero (m : ColorMap) (v : Nat) (h : atMostKeyZero m) :
    atMostKeyZero (mapEmplace m 0 v) := by
  rcases h with h | ⟨w, h⟩
  · subst h; exact Or.inr ⟨v, rfl⟩
  · subst h; exact Or.inr ⟨w, by simp [mapEmplace]⟩

mutual
theorem collectColorsItem_keyZero :
    ∀ (item : Item) (state : Nat × ColorMap), state.1 = 0 → atMostKeyZero state.2 →
      (collectColorsItem item state).1 = 0 ∧ atMostKeyZero (collectColorsItem item state).2
  | .folder cs, state, h1, h2 => by
    simpa [collectColorsItem] using collectChildColors_keyZero cs state h1 h2
  | .group g _, state, h1, h2 => by
    simp only [collectColorsItem, h1, true_and]
    exact mapEmplace_keyZero _ _ h2
  | .text _, state, h1, h2 => by
    simp only [collectColorsItem]
    exact ⟨h1, h2⟩
theorem collectChildColors_keyZero :
    ∀ (items : List Item) (state : Nat × ColorMap), state.1 = 0 → atMostKeyZero state.2 →
      (collectChildColors items state).1 = 0 ∧ atMostKeyZero (collectChildColors items state).2
  | [], state, h1, h2 => by
    simp only [collectChildColors]
    exact ⟨h1, h2⟩
  | c :: cs, state, h1, h2 => by
    obtain ⟨k1, k2⟩ := collectColorsItem_keyZero c state h1 h2
    simp only [collectChildColors]
    exact collectChildColors_keyZero cs _ k1 k2
end

/-- C18 fails on the code: for a root holding two scenes, with the colours 1
and 2, `itemsColors` returns the single entry `0 ↦ 1`, not two entries with
increasing keys: `lastItemDuration` is never assigned, so both scenes are
emplaced under the key 0 and the second is dropped.  For every tree the map is
empty or has one entry, whose key is 0. -/
theorem itemsColors_single_entry :
    itemsColors [sceneWith (colouredScene 1) [paragraph TextParagraphType.Action "He waits."],
        sceneWith (colouredScene 2) [paragraph TextParagraphType.Action "She leaves."]]
      = [(0, 1)]
    ∧ ∀ rootChildren : List Item,
        itemsColors rootChildren = [] ∨ ∃ v, itemsColors rootChildren = [(0, v)] :=
  ⟨by decide, fun rootChildren =>
    (collectChildColors_keyZero rootChildren (0, []) rfl (Or.inl rfl)).2⟩

/-! ## C19, C20: the counter passed to automatic scenes -/

theorem numberScene_vars (ops : NumberOps) (g : GroupData) (cs : List Item)
    (st : NumberingState) :
    (numberScene ops g cs st).1
        = (numberScene ops g cs (sceneVars st.sceneNumber st.lastLockedSceneFullNumber)).1
      ∧ (numberScene ops g cs st).2.sceneNumber
        = (numberScene ops g cs
            (sceneVars st.sceneNumber st.lastLockedSceneFullNumber)).2.sceneNumber
      ∧ (numberScene ops g cs st).2.lastLockedSceneFullNumber
        = (numberScene ops g cs
            (sceneVars st.sceneNumber st.lastLockedSceneFullNumber)).2.lastLockedSceneFullNumber := by
  unfold numberScene sceneVars
  simp only
  split_ifs <;> exact ⟨rfl, rfl, rfl⟩

theorem zipNumber_append (ops : NumberOps) (d1 d2 : List GroupData) :
    ∀ (c1 c2 : List (List Item)) (n : Nat) (f : QString), c1.length = d1.length →
      zipNumber ops (d1 ++ d2) (c1 ++ c2) n f
        = ((zipNumber ops d1 c1 n f).1
            ++ (zipNumber ops d2 c2 (zipNumber ops d1 c1 n f).2.1
                (zipNumber ops d1 c1 n f).2.2).1,
           (zipNumber ops d2 c2 (zipNumber ops d1 c1 n f).2.1
                (zipNumber ops d1 c1 n f).2.2).2) := by
  induction d1 with
  | nil =>
    intro c1 c2 n f h
    have : c1 = [] := List.length_eq_zero.1 h
    subst this
    simp [zipNumber]
  | cons g gs ih =>
    intro c1 c2 n f h
    cases c1 with
    | nil => simp at h
    | cons c cs =>
      simp only [List.length_cons, Nat.add_right_cancel_iff] at h
      rw [List.cons_append, List.cons_append]
      simp only [zipNumber, ih cs c2 _ _ h, List.cons_append]

theorem zipNumber_length (ops : NumberOps) (d : List GroupData) :
    ∀ (c : List (List Item)) (n : Nat) (f : QString), c.length = d.length →
      (zipNumber ops d c n f).1.length = d.length := by
  induction d with
  | nil => intro c n f _; simp [zipNumber]
  | cons g gs ih =>
    intro c n f h
    cases c with
    | nil => simp at h
    | cons c cs =>
      simp only [List.length_cons, Nat.add_right_cancel_iff] at h
      simp only [zipNumber, List.length_cons, ih cs _ _ h]

mutual
theorem updateItem_top (ops : NumberOps) :
    ∀ (item : Item) (st : NumberingState), scenesOnTop item = true →
      ∃ cs : List (List Item), cs.length = (scenes item).length
        ∧ scenes (updateItemNumbering ops item st).1
            = (zipNumber ops (scenes item) cs st.sceneNumber st.lastLockedSceneFullNumber).1
        ∧ (updateItemNumbering ops item st).2.sceneNumber
            = (zipNumber ops (scenes item) cs st.sceneNumber st.lastLockedSceneFullNumber).2.1
        ∧ (updateItemNumbering ops item st).2.lastLockedSceneFullNumber
            = (zipNumber ops (scenes item) cs st.sceneNumber st.lastLockedSceneFullNumber).2.2
  | .folder cs, st, h => by
    simp only [scenesOnTop] at h
    simpa [updateItemNumbering, scenes] using updateChildren_top ops cs st h
  | .group g cs, st, h => by
    simp only [scenesOnTop, List.isEmpty_iff] at h
    obtain ⟨h1, h2, _, h4⟩ := updateChildren_noScenes ops cs st h
    by_cases hs : g.groupType = TextGroupType.Scene
    · have ht := numberScene_groupType ops g (updateChildNumbering ops cs st).1
        (updateChildNumbering ops cs st).2
      rw [hs] at ht
      obtain ⟨v1, v2, v3⟩ := numberScene_vars ops g (updateChildNumbering ops cs st).1
        (updateChildNumbering ops cs st).2
      rw [h1, h2] at v1 v2 v3
      refine ⟨[(updateChildNumbering ops cs st).1], ?_, ?_, ?_, ?_⟩
      · simp [scenes, hs, h]
      · simp only [updateItemNumbering, hs, if_true, scenes, ht, h4, h, zipNumber, v1,
          numberScene_groupType]
      · simp only [updateItemNumbering, hs, if_true, scenes, h, zipNumber, v2]
      · simp only [updateItemNumbering, hs, if_true, scenes, h, zipNumber, v3]
    · refine ⟨[], ?_, ?_, ?_, ?_⟩
      · simp [scenes, hs, h]
      · simp [updateItemNumbering, hs, scenes, h4, h, zipNumber]
      · simp [updateItemNumbering, hs, scenes, h, zipNumber, h1]
      · simp [updateItemNumbering, hs, scenes, h, zipNumber, h2]
  | .text t, st, _ => by
    refine ⟨[], ?_, ?_, ?_, ?_⟩ <;>
      simp only [updateItemNumbering, numberParagraph, scenes, zipNumber, List.length_nil] <;>
      split <;> rfl
theorem updateChildren_top (ops : NumberOps) :
    ∀ (items : List Item) (st : NumberingState), scenesOnTopList items = true →
      ∃ cs : List (List Item), cs.length = (scenesList items).length
        ∧ scenesList (updateChildNumbering ops items st).1
            = (zipNumber ops (scenesList items) cs st.sceneNumber
                st.lastLockedSceneFullNumber).1
        ∧ (updateChildNumbering ops items st).2.sceneNumber
            = (zipNumber ops (scenesList items) cs st.sceneNumber
                st.lastLockedSceneFullNumber).2.1
        ∧ (updateChildNumbering ops items st).2.lastLockedSceneFullNumber
            = (zipNumber ops (scenesList items) cs st.sceneNumber
                st.lastLockedSceneFullNumber).2.2
  | [], st, _ => ⟨[], by simp [updateChildNumbering, scenesList, zipNumber]⟩
  | c :: rest, st, h => by
    simp only [scenesOnTopList, Bool.and_eq_true] at h
    obtain ⟨cs1, l1, h1, h2, h3⟩ := updateItem_top ops c st h.1
    obtain ⟨cs2, l2, k1, k2, k3⟩ :=
      updateChildren_top ops rest (updateItemNumbering ops c st).2 h.2
    refine ⟨cs1 ++ cs2, by simp [scenesList, l1, l2], ?_⟩
    simp only [updateChildNumbering, scenesList]
    rw [zipNumber_append ops _ _ cs1 cs2 _ _ l1, h1, k1, k2, k3, h2, h3]
    exact ⟨rfl, rfl, rfl⟩
end

theorem numberScene_unlocked (ops : NumberOps) (succeeds : GroupData → Bool)
    (hsucc : ∀ g cs n f, (ops.setNumber g cs n f).2 = succeeds g) (g : GroupData)
    (cs : List Item) (n : Nat) (f : QString) (h : isLockedScene g = false) :
    (numberScene ops g cs (sceneVars n f)).2.sceneNumber = n + successAdvance succeeds [g]
      ∧ (numberScene ops g cs (sceneVars n f)).2.lastLockedSceneFullNumber = f := by
  unfold isLockedScene at h
  simp only [numberScene, sceneVars, h, successAdvance, isAutoScene, isEatScene, hsucc,
    List.filter_cons, List.filter_nil]
  cases hc : (g.number.map (fun n => n.isCustom)).getD false <;>
    cases he : (g.number.map (fun n => n.isEatNumber)).getD false <;>
    cases hs : succeeds g <;> simp

theorem successAdvance_cons (succeeds : GroupData → Bool) (g : GroupData)
    (l : List GroupData) :
    successAdvance succeeds (g :: l)
      = successAdvance succeeds [g] + successAdvance succeeds l := by
  simp only [successAdvance, List.filter_cons, List.filter_nil]
  split <;> split <;> simp <;> omega

theorem zipNumber_unlocked (ops : NumberOps) (succeeds : GroupData → Bool)
    (hsucc : ∀ g cs n f, (ops.setNumber g cs n f).2 = succeeds g) (d : List GroupData) :
    ∀ (c : List (List Item)) (n : Nat) (f : QString), c.length = d.length →
      (∀ x ∈ d, isLockedScene x = false) →
      (zipNumber ops d c n f).2 = (n + successAdvance succeeds d, f) := by
  induction d with
  | nil => intro c n f _ _; simp [zipNumber, successAdvance]
  | cons g gs ih =>
    intro c n f hl h
    cases c with
    | nil => simp at hl
    | cons c cs =>
      simp only [List.length_cons, Nat.add_right_cancel_iff] at hl
      obtain ⟨e1, e2⟩ := numberScene_unlocked ops succeeds hsucc g c n f
        (h g (List.mem_cons_self _ _))
      simp only [zipNumber]
      rw [e1, e2, ih cs _ _ hl (fun x hx => h x (List.mem_cons_of_mem _ hx)),
        successAdvance_cons succeeds g gs]
      simp [Nat.add_assoc]

theorem split_at_length (pre : List GroupData) (g : GroupData) (post : List GroupData) :
    ∀ c : List (List Item), c.length = (pre ++ g :: post).length →
      ∃ c1 x c2, c = c1 ++ x :: c2 ∧ c1.length = pre.length ∧ c2.length = post.length := by
  induction pre with
  | nil =>
    intro c h
    cases c with
    | nil => simp at h
    | cons x c2 => exact ⟨[], x, c2, rfl, rfl, by simpa using h⟩
  | cons p ps ih =>
    intro c h
    cases c with
    | nil => simp at h
    | cons y c =>
      obtain ⟨c1, x, c2, hc, h1, h2⟩ := ih c (by simpa using h)
      exact ⟨y :: c1, x, c2, by simp [hc], by simp [h1], h2⟩

/-- C19: in a tree without a locked scene whose scenes all sit directly under
the root or under folders, with a `setNumber` whose success depends on the
group alone, every automatically numbered scene is numbered by
`setNumber(1 + a + e, "")`: `a` counts the automatic scenes before it in
document order whose `setNumber` succeeded and `e` the custom scenes before it
flagged `isEatNumber`; other custom scenes and failed calls do not count. -/
theorem autoCounter_top (ops : NumberOps) (succeeds : GroupData → Bool)
    (hsucc : ∀ g cs n f, (ops.setNumber g cs n f).2 = succeeds g) (rootChildren : List Item)
    (pre : List GroupData) (g : GroupData) (post : List GroupData)
    (htop : scenesOnTopList rootChildren = true)
    (hnolock : ∀ x ∈ scenesList rootChildren, isLockedScene x = false)
    (hsplit : scenesList rootChildren = pre ++ g :: post) (hauto : isAutoScene g = true) :
    ∃ children,
      (scenesList (updateNumbering ops (.folder rootChildren)).1.children)[pre.length]?
        = some (autoNumbered ops g children
            (1 + (pre.filter (fun x => isAutoScene x && succeeds x)).length
              + (pre.filter isEatScene).length) []) := by
  obtain ⟨cs, hl, h1, _, _⟩ := updateChildren_top ops rootChildren initialNumbering htop
  rw [hsplit] at hl h1
  obtain ⟨c1, x, c2, hc, hl1, _⟩ := split_at_length pre g post cs hl
  subst hc
  have hpre : ∀ y ∈ pre, isLockedScene y = false := fun y hy =>
    hnolock y (by rw [hsplit]; exact List.mem_append_left _ hy)
  refine ⟨x, ?_⟩
  simp only [updateNumbering, Item.children]
  rw [h1, zipNumber_append ops pre (g :: post) c1 (x :: c2) _ _ hl1]
  simp only
  rw [List.getElem?_append_right (by rw [zipNumber_length ops pre c1 _ _ hl1]),
    zipNumber_length ops pre c1 _ _ hl1, zipNumber_unlocked ops succeeds hsucc pre c1 _ _ hl1 hpre]
  simp only [Nat.sub_self, zipNumber, List.getElem?_cons_zero, Option.some.injEq]
  rw [(numberScene_auto ops g x _ hauto).1]
  simp [sceneVars, initialNumbering, successAdvance, Nat.add_assoc]

theorem storeOps_success (succeeds : GroupData → Bool) :
    ∀ (g : GroupData) (cs : List Item) (n : Nat) (f : QString),
      ((storeOps (fun g _ => succeeds g)).setNumber g cs n f).2 = succeeds g := by
  intro g cs n f
  simp only [storeOps, storeSetNumber]
  split <;> simp_all

/-- C19 at a root holding an automatic scene, a scene whose `setNumber` fails,
the custom scene 7A (which eats a number), the custom scene 8B (which does
not) and an automatic scene: the last one is numbered with the counter
1 + 1 + 1. -/
theorem autoCounter_top_witness :
    ∃ children,
      (scenesList (updateNumbering (storeOps (fun g _ => refusesNine g))
          (.folder [sceneWith plainScene [], sceneWith (colouredScene 9) [],
            .folder [sceneWith customScene [], sceneWith customKeeps []],
            sceneWith plainScene []])).1.children)[4]?
        = some (autoNumbered (storeOps (fun g _ => refusesNine g)) plainScene children
            (1 + ([plainScene, colouredScene 9, customScene, customKeeps].filter
                (fun x => isAutoScene x && refusesNine x)).length
              + ([plainScene, colouredScene 9, customScene, customKeeps].filter
                  isEatScene).length) []) :=
  autoCounter_top (storeOps (fun g _ => refusesNine g)) refusesNine
    (storeOps_success refusesNine)
    [sceneWith plainScene [], sceneWith (colouredScene 9) [],
      .folder [sceneWith customScene [], sceneWith customKeeps []],
      sceneWith plainScene []]
    [plainScene, colouredScene 9, customScene, customKeeps] plainScene []
    (by decide) (by decide) (by decide) (by decide)

/-! ## C15: the list of characters of a SceneCharacters paragraph -/

theorem simplifiedGo_append (a b : QString) : ∀ started pending,
    simplifiedGo started pending (a ++ b)
      = simplifiedGo started pending a
        ++ simplifiedGo (simplifiedState started pending a).1
            (simplifiedState started pending a).2 b := by
  induction a with
  | nil => intro _ _; rfl
  | cons c cs ih =>
    intro started pending
    rw [List.cons_append]
    simp only [simplifiedGo, simplifiedState]
    split
    · exact ih _ _
    · split <;> simp [ih]

theorem simplifiedGo_of_normal_space (s : QString) :
    (normGo false s = true → simplifiedGo true false (s ++ [' ']) = s)
    ∧ (normGo true s = true → simplifiedGo true true (s ++ [' ']) = ' ' :: s) := by
  induction s with
  | nil => simp [normGo, simplifiedGo, space_isSpace]
  | cons a s ih =>
    constructor
    · intro h
      simp only [normGo] at h
      by_cases ha : a = ' '
      · rw [if_pos ha] at h
        simp only [Bool.not_false, Bool.true_and] at h
        subst ha
        rw [List.cons_append]
        simp only [simplifiedGo, space_isSpace, if_true]
        exact ih.2 h
      · rw [if_neg ha] at h
        simp only [Bool.and_eq_true, Bool.not_eq_true'] at h
        rw [List.cons_append]
        simp only [simplifiedGo, h.1, Bool.false_eq_true, if_false]
        rw [ih.1 h.2]
    · intro h
      simp only [normGo] at h
      by_cases ha : a = ' '
      · rw [if_pos ha] at h
        simp at h
      · rw [if_neg ha] at h
        simp only [Bool.and_eq_true, Bool.not_eq_true'] at h
        rw [List.cons_append]
        simp only [simplifiedGo, h.1, Bool.false_eq_true, if_false, if_true]
        rw [ih.1 h.2]

theorem simplified_normal_space (s : QString) (h : normGo true s = true) :
    simplified (s ++ [' ']) = s := by
  cases s with
  | nil => simp [normGo] at h
  | cons a s =>
    simp only [normGo] at h
    by_cases ha : a = ' '
    · rw [if_pos ha] at h
      simp at h
    · rw [if_neg ha] at h
      simp only [Bool.and_eq_true, Bool.not_eq_true'] at h
      rw [List.cons_append]
      simp only [simplified, simplifiedGo, h.1, Bool.false_eq_true, if_false]
      rw [(simplifiedGo_of_normal_space s).1 h.2]

theorem simplified_cons_space (s : QString) : simplified (' ' :: s) = simplified s := by
  simp [simplified, simplifiedGo, space_isSpace]

/-- What the scanner of `simplified` does with a text that holds a character
that is not white space: the output after white space is the output from the
start behind one space, the output is not empty and is in normal form, and the
scanner ends in the same state. -/
theorem simplifiedGo_nonspace (n : QString) (h : n.any (fun c => !isSpace c) = true) :
    simplifiedGo true true n = ' ' :: simplified n
      ∧ normGo true (simplified n) = true
      ∧ simplifiedState true true n = simplifiedState false false n
      ∧ (simplifiedState false false n).1 = true := by
  induction n with
  | nil => simp at h
  | cons c cs ih =>
    by_cases hc : isSpace c = true
    · have h2 : cs.any (fun c => !isSpace c) = true := by
        simpa [List.any_cons, hc] using h
      obtain ⟨i1, i2, i3, i4⟩ := ih h2
      simp only [simplified, simplifiedGo, simplifiedState, hc, if_true] at i1 i2 ⊢
      exact ⟨i1, i2, i3, i4⟩
    · have hc2 : isSpace c = false := by simpa using hc
      have hne := space_ne_of_not_isSpace c hc2
      refine ⟨by simp [simplified, simplifiedGo, hc2], ?_, by simp [simplifiedState, hc2], ?_⟩
      · simp only [simplified, simplifiedGo, hc2, Bool.false_eq_true, if_false, normGo, hne,
          Bool.not_false, Bool.true_and]
        exact (simplifiedGo_normal cs).1
      · simp only [simplifiedState, hc2, Bool.false_eq_true, if_false]
        clear ih h
        generalize false = p
        induction cs generalizing p with
        | nil => rfl
        | cons d ds ih2 =>
          simp only [simplifiedState]
          split
          · exact ih2 true
          · exact ih2 false

theorem removeRxState_no_paren (s : QString) (h : '(' ∉ s) : removeRxState s = s := by
  unfold removeRxState
  induction s with
  | nil => rfl
  | cons c cs ih =>
    simp only [List.mem_cons, not_or] at h
    simp [removeRxStateGo, Ne.symm h.1, ih h.2]

theorem name_no_paren (s : QString) (h : '(' ∉ s) :
    NovelCharacterParser.name s = smartToUpper (simplified s) := by
  rw [NovelCharacterParser.name, removeRxState_no_paren s h]

theorem isListName_facts (n : QString) (h : isListName n = true) :
    n.any (fun c => !isSpace c) = true ∧ ',' ∉ n ∧ '(' ∉ n := by
  simp only [isListName, Bool.and_eq_true, List.all_eq_true, bne_iff_ne, ne_eq] at h
  exact ⟨h.1, fun hm => (h.2 _ hm).1.1 rfl, fun hm => (h.2 _ hm).1.2 rfl⟩

/-- The entry of the simplified list that comes from the name `n`: the
simplified name, with a space before it when it is not the first entry and a
space after it when white space ends the name. -/
theorem entry_name (n : QString) (h : isListName n = true) (lead trail : Bool) :
    (if lead then ' ' :: simplified n else simplified n) ++ (if trail then [' '] else []) ≠ []
      ∧ ',' ∉ (if lead then ' ' :: simplified n else simplified n)
          ++ (if trail then [' '] else [])
      ∧ NovelCharacterParser.name (simplified
          ((if lead then ' ' :: simplified n else simplified n)
            ++ (if trail then [' '] else [])))
        = NovelCharacterParser.name n := by
  obtain ⟨h1, h2, h3⟩ := isListName_facts n h
  obtain ⟨_, hn, _, _⟩ := simplifiedGo_nonspace n h1
  have hne : simplified n ≠ [] := by
    intro e; rw [e] at hn; simp [normGo] at hn
  have hs : simplified ((if lead then ' ' :: simplified n else simplified n)
      ++ (if trail then [' '] else [])) = simplified n := by
    cases lead <;> cases trail <;>
      simp [simplified_cons_space, simplified_normal_space _ hn, simplified_idem]
  have hc : ',' ∉ simplified n := not_mem_simplified n _ (by decide) h2
  have hp : '(' ∉ simplified n := not_mem_simplified n _ (by decide) h3
  refine ⟨?_, ?_, ?_⟩
  · cases lead <;> cases trail <;> simp [hne]
  · cases lead <;> cases trail <;> simp [hc]
  · rw [hs, name_no_paren _ hp, name_no_paren _ h3, simplified_idem]

theorem split_comma_cons (e y : QString) (h : ',' ∉ e) :
    split (e ++ ',' :: y) [','] = e :: split y [','] := by
  have := split_append_sep [','] e y (by simp) (noStart_of_first ',' [] e _ h)
  simpa using this

theorem split_comma_single (e : QString) (h : ',' ∉ e) : split e [','] = [e] :=
  split_none [','] e (noStart_of_first ',' [] e _ h)

theorem simplifiedGo_after_name (n rest : QString) (h : isListName n = true) (start : Bool) :
    simplifiedGo start start (n ++ qs ", " ++ rest)
      = ((if start then ' ' :: simplified n else simplified n)
          ++ (if (simplifiedState false false n).2 then [' '] else []))
        ++ ',' :: simplifiedGo true true rest := by
  obtain ⟨h1, _, _⟩ := isListName_facts n h
  obtain ⟨k1, _, k3, k4⟩ := simplifiedGo_nonspace n h1
  have hq : qs ", " = [',', ' '] := rfl
  have hstate : simplifiedState start start n = (true, (simplifiedState false false n).2) := by
    cases start
    · exact Prod.ext k4 rfl
    · rw [k3]; exact Prod.ext k4 rfl
  have hout : simplifiedGo start start n
      = if start then ' ' :: simplified n else simplified n := by
    cases start
    · rfl
    · simpa using k1
  rw [List.append_assoc, simplifiedGo_append, hstate, hout, hq]
  have hcomma : isSpace ',' = false := by decide
  cases hp : (simplifiedState false false n).2 <;>
    simp [simplifiedGo, hcomma, space_isSpace]

theorem characters_core : ∀ (names : List QString), names ≠ [] →
    (∀ n ∈ names, isListName n = true) → ∀ start : Bool,
      ((split (simplifiedGo start start (joinNames names)) [',']).filter
          (fun p => !p.isEmpty)).map (fun e => NovelCharacterParser.name (simplified e))
        = names.map NovelCharacterParser.name
  | [], h, _, _ => absurd rfl h
  | [n], _, hv, start => by
    have hn := hv n (List.mem_singleton.2 rfl)
    obtain ⟨h1, _, _⟩ := isListName_facts n hn
    obtain ⟨k1, _, _, _⟩ := simplifiedGo_nonspace n h1
    obtain ⟨e1, e2, e3⟩ := entry_name n hn start false
    have hout : simplifiedGo start start n
        = (if start then ' ' :: simplified n else simplified n) ++ (if false then [' '] else []) := by
      cases start
      · simp [simplified]
      · simpa using k1
    simp only [joinNames]
    rw [hout, split_comma_single _ e2]
    simp only [List.filter_cons, List.filter_nil, List.map_cons, List.map_nil]
    rw [if_pos (by simpa using e1)]
    simp only [List.map_cons, List.map_nil, e3]
  | n :: m :: rest, _, hv, start => by
    have hn := hv n (List.mem_cons_self _ _)
    obtain ⟨e1, e2, e3⟩ := entry_name n hn start (simplifiedState false false n).2
    have ih := characters_core (m :: rest) (List.cons_ne_nil _ _)
      (fun x hx => hv x (List.mem_cons_of_mem _ hx)) true
    simp only [joinNames]
    rw [simplifiedGo_after_name n _ hn start, split_comma_cons _ _ e2]
    simp only [List.filter_cons]
    rw [if_pos (by simpa using e1)]
    simp only [List.map_cons, e3, ih]

/-- C15: for names `n1 .. nk` (`k ≥ 1`), each holding a character that is not
white space and no comma, no `(` and no line feed,
`characters(n1 + ", " + ... + ", " + nk)` is the list
`[name(n1), ..., name(nk)]`, in this order and without an empty element. -/
theorem characters_of_names (names : List QString) (hne : names ≠ [])
    (hnames : ∀ n ∈ names, isListName n = true) :
    NovelSceneCharactersParser.characters (joinNames names)
        = names.map NovelCharacterParser.name
      ∧ (NovelSceneCharactersParser.characters (joinNames names)).length = names.length
      ∧ ∀ e ∈ NovelSceneCharactersParser.characters (joinNames names), e ≠ [] := by
  have hq : qs "," = [','] := rfl
  have e : NovelSceneCharactersParser.characters (joinNames names)
      = names.map NovelCharacterParser.name := by
    simp only [NovelSceneCharactersParser.characters, splitSkipEmpty, hq, simplified]
    exact characters_core names hne hnames false
  rw [e]
  refine ⟨rfl, by simp, ?_⟩
  intro x hx
  simp only [List.mem_map] at hx
  obtain ⟨n, hn, rfl⟩ := hx
  obtain ⟨h1, _, h3⟩ := isListName_facts n (hnames n hn)
  obtain ⟨_, k2, _, _⟩ := simplifiedGo_nonspace n h1
  rw [name_no_paren n h3]
  intro h0
  have : simplified n = [] := by
    simpa [smartToUpper] using h0
  rw [this] at k2
  simp [normGo] at k2

/-- C15 at the names " john  smith ", "Anna" and "bob\t": the list is
JOHN SMITH, ANNA, BOB. -/
theorem characters_of_names_witness :
    NovelSceneCharactersParser.characters (qs " john  smith , Anna, bob\t")
        = [qs "JOHN SMITH", qs "ANNA", qs "BOB"]
      ∧ (NovelSceneCharactersParser.characters (qs " john  smith , Anna, bob\t")).length = 3
      ∧ ∀ e ∈ NovelSceneCharactersParser.characters (qs " john  smith , Anna, bob\t"),
          e ≠ [] :=
  characters_of_names [qs " john  smith ", qs "Anna", qs "bob\t"] (by decide) (by decide)

/-! ## The section functions -/

theorem split_two_iff_contains (s sep : QString) (hne : sep ≠ []) :
    2 ≤ (split s sep).length ↔ contains s sep = true := by
  constructor
  · intro h
    by_contra hc
    rw [split_of_not_contains s sep (Bool.eq_false_iff.2 hc)] at h
    simp at h
  · intro h
    obtain ⟨a, r, e, hs⟩ := first_occurrence_of_contains s sep hne h
    rw [e, split_append_sep sep a r hne hs, List.length_cons]
    have := split_length_pos r sep
    omega

theorem split_one_iff_not_contains (s sep : QString) (hne : sep ≠ []) :
    (split s sep).length = 1 ↔ contains s sep = false := by
  have h2 := split_two_iff_contains s sep hne
  have h1 := split_length_pos s sep
  constructor
  · intro h
    cases hc : contains s sep with
    | false => rfl
    | true => have := h2.2 hc; omega
  · intro h
    rw [split_of_not_contains s sep h]
    rfl

/-- C26: the Character text "JOHN (V.O.) (CONT'D" contains "(" (twice), yet
`NovelCharacterParser::section` answers SectionName for it, while `name` and
`extension` of the same text split at the first "(" (JOHN and V.O. CONT'D):
`section` answers SectionExtension only when the text splits into exactly two
pieces.  It never answers SectionUndefined. -/
theorem section_two_parentheses :
    contains (qs "JOHN (V.O.) (CONT'D") (qs "(") = true
      ∧ NovelCharacterParser.sectionOf (qs "JOHN (V.O.) (CONT'D")
          = NovelCharacterParser.Section.SectionName
      ∧ NovelCharacterParser.name (qs "JOHN (V.O.) (CONT'D") = qs "JOHN"
      ∧ NovelCharacterParser.extension (qs "JOHN (V.O.) (CONT'D") = qs "V.O. CONT'D"
      ∧ NovelCharacterParser.sectionOf (qs "JOHN (V.O.)")
          = NovelCharacterParser.Section.SectionExtension
      ∧ (∀ text, (split text (qs "(")).length ≠ 2 →
          NovelCharacterParser.sectionOf text = NovelCharacterParser.Section.SectionName)
      ∧ ∀ text, NovelCharacterParser.sectionOf text
          ≠ NovelCharacterParser.Section.SectionUndefined := by
  refine ⟨by decide, by decide, by decide, by decide, by decide, ?_, ?_⟩
  · intro text h
    simp [NovelCharacterParser.sectionOf, h]
  · intro text
    unfold NovelCharacterParser.sectionOf
    split <;> simp

/-- C27: for every text, `NovelSceneHeadingParser::section` is SectionSceneTime
if the text contains " -- " or " - ", otherwise SectionLocation if it contains
". ", otherwise SectionSceneIntro, and never SectionUndefined; "INT" is intro,
"INT. KITCHEN" location and "INT. KITCHEN - " time. -/
theorem section_of_heading (text : QString) :
    NovelSceneHeadingParser.sectionOf text
        = (if contains text (qs " -- ") = true ∨ contains text (qs " - ") = true then
            NovelSceneHeadingParser.Section.SectionSceneTime
          else if contains text (qs ". ") = true then
            NovelSceneHeadingParser.Section.SectionLocation
          else NovelSceneHeadingParser.Section.SectionSceneIntro)
      ∧ NovelSceneHeadingParser.sectionOf text
          ≠ NovelSceneHeadingParser.Section.SectionUndefined
      ∧ NovelSceneHeadingParser.sectionOf (qs "INT")
          = NovelSceneHeadingParser.Section.SectionSceneIntro
      ∧ NovelSceneHeadingParser.sectionOf (qs "INT. KITCHEN")
          = NovelSceneHeadingParser.Section.SectionLocation
      ∧ NovelSceneHeadingParser.sectionOf (qs "INT. KITCHEN - ")
          = NovelSceneHeadingParser.Section.SectionSceneTime := by
  have e : NovelSceneHeadingParser.sectionOf text
        = (if contains text (qs " -- ") = true ∨ contains text (qs " - ") = true then
            NovelSceneHeadingParser.Section.SectionSceneTime
          else if contains text (qs ". ") = true then
            NovelSceneHeadingParser.Section.SectionLocation
          else NovelSceneHeadingParser.Section.SectionSceneIntro) := by
    unfold NovelSceneHeadingParser.sectionOf
    simp only [ge_iff_le, split_two_iff_contains text (qs " -- ") (by decide),
      split_two_iff_contains text (qs " - ") (by decide),
      split_one_iff_not_contains text (qs ". ") (by decide)]
    by_cases h1 : contains text (qs " -- ") = true ∨ contains text (qs " - ") = true
    · rw [if_pos h1, if_pos h1]
    · rw [if_neg h1, if_neg h1]
      cases hc : contains text (qs ". ") <;> simp
  refine ⟨e, ?_, by decide, by decide, by decide⟩
  rw [e]
  split
  · simp
  · split <;> simp

/-! ## Locations -/

/-- C25: `location("INT. A - B C - B", false)` is A C, which is not a prefix
of `location("INT. A - B C - B", true)` = A - B C - B, and
`location("INT. A - B - ", false)` is AB, not a prefix of A - B -: the
non-forced mode deletes every occurrence of " - " followed by the time text,
not only the trailing one. -/
theorem location_strips_inner_occurrences :
    NovelSceneHeadingParser.location (qs "INT. A - B C - B") false = qs "A C"
      ∧ NovelSceneHeadingParser.location (qs "INT. A - B C - B") true = qs "A - B C - B"
      ∧ (NovelSceneHeadingParser.location (qs "INT. A - B C - B") false).isPrefixOf
          (NovelSceneHeadingParser.location (qs "INT. A - B C - B") true) = false
      ∧ NovelSceneHeadingParser.location (qs "INT. A - B - ") false = qs "AB"
      ∧ NovelSceneHeadingParser.location (qs "INT. A - B - ") true = qs "A - B -"
      ∧ (NovelSceneHeadingParser.location (qs "INT. A - B - ") false).isPrefixOf
          (NovelSceneHeadingParser.location (qs "INT. A - B - ") true) = false := by
  refine ⟨by decide, by decide, by decide, by decide, by decide, by decide⟩

/-- C24: `updateLocationName("EX", "PARK")` on a scene whose heading is
"EXT. EX -- DAY" (parsed location EX): the new text is "PARKT. EX -- DAY", so
the location is still EX and the intro has changed from EXT. to PARKT.; the
first occurrence of the old name in the upper-cased text is replaced, and it
lies in the intro. -/
theorem updateLocationName_rewrites_intro :
    NovelSceneHeadingParser.location (qs "EXT. EX -- DAY") false = smartToUpper (qs "EX")
      ∧ updateLocationName (qs "EX") (qs "PARK") [Item.group plainScene [headingEx]]
          = [Item.group plainScene
              [paragraph TextParagraphType.SceneHeading "PARKT. EX -- DAY"]]
      ∧ NovelSceneHeadingParser.location (qs "PARKT. EX -- DAY") false = qs "EX"
      ∧ NovelSceneHeadingParser.location (qs "PARKT. EX -- DAY") false ≠ qs "PARK"
      ∧ NovelSceneHeadingParser.sceneIntro (qs "EXT. EX -- DAY") = qs "EXT."
      ∧ NovelSceneHeadingParser.sceneIntro (qs "PARKT. EX -- DAY") = qs "PARKT."
      ∧ NovelSceneHeadingParser.sceneTime (qs "PARKT. EX -- DAY")
          = NovelSceneHeadingParser.sceneTime (qs "EXT. EX -- DAY") := by
  refine ⟨by decide, by rfl, by decide, by decide, by decide, by decide, by decide⟩

/-! ## A scene that is locked and custom; numbering twice -/

theorem prepareNumberText_idem (accepts : GroupData → List Item → Bool)
    (number : Option SceneNumber) :
    prepareNumberText (storeOps accepts) (qs "#.")
        (prepareNumberText (storeOps accepts) (qs "#.") number)
      = prepareNumberText (storeOps accepts) (qs "#.") number := by
  cases number with
  | none => rfl
  | some n => simp [prepareNumberText, storeOps, storeNumberText]

theorem numberScene_idem (accepts : GroupData → List Item → Bool)
    (haccepts : ∀ g cs number, accepts { g with number := number } cs = accepts g cs)
    (g : GroupData) (cs : List Item) (st : NumberingState) :
    numberScene (storeOps accepts) (numberScene (storeOps accepts) g cs st).1 cs st
      = numberScene (storeOps accepts) g cs st := by
  cases hnum : g.number with
  | none =>
    cases ha : accepts g cs with
    | false =>
      have ha2 : ∀ number, accepts { g with number := number } cs = false := by
        intro number; rw [haccepts, ha]
      simp [numberScene, hnum, storeOps, storeSetNumber, ha, ha2, prepareNumberText]
    | true =>
      have ha2 : ∀ number, accepts { g with number := number } cs = true := by
        intro number; rw [haccepts, ha]
      simp [numberScene, hnum, storeOps, storeSetNumber, ha, ha2, prepareNumberText,
        storeNumberText]
  | some n =>
    cases hl : n.isLocked with
    | true => simp [numberScene, hnum, hl, prepareNumberText, storeOps, storeNumberText]
    | false =>
      cases hc : n.isCustom with
      | true =>
        cases he : n.isEatNumber <;>
          simp [numberScene, hnum, hl, hc, he, prepareNumberText, storeOps, storeNumberText]
      | false =>
        cases ha : accepts g cs with
        | false =>
          have ha2 : ∀ number, accepts { g with number := number } cs = false := by
            intro number; rw [haccepts, ha]
          simp [numberScene, hnum, hl, hc, storeOps, storeSetNumber, ha, ha2,
            prepareNumberText, storeNumberText]
        | true =>
          have ha2 : ∀ number, accepts { g with number := number } cs = true := by
            intro number; rw [haccepts, ha]
          simp [numberScene, hnum, hl, hc, storeOps, storeSetNumber, ha, ha2,
            prepareNumberText, storeNumberText]

theorem numberParagraph_idem (t : TextData) (st : NumberingState) :
    numberParagraph (numberParagraph t st).1 st = numberParagraph t st := by
  unfold numberParagraph
  by_cases h : t.paragraphType = TextParagraphType.Character ∧ t.isCorrection = false
  · simp [h]
  · simp [h]

mutual
theorem updateItem_idem (accepts : GroupData → List Item → Bool)
    (haccepts : ∀ g cs number, accepts { g with number := number } cs = accepts g cs) :
    ∀ (item : Item) (st : NumberingState),
      updateItemNumbering (storeOps accepts)
          (updateItemNumbering (storeOps accepts) item st).1 st
        = updateItemNumbering (storeOps accepts) item st
  | .folder cs, st => by
    simp only [updateItemNumbering]
    rw [updateChildren_idem accepts haccepts cs st]
  | .group g cs, st => by
    by_cases hs : g.groupType = TextGroupType.Scene
    · have hs2 : (numberScene (storeOps accepts) g
          (updateChildNumbering (storeOps accepts) cs st).1
          (updateChildNumbering (storeOps accepts) cs st).2).1.groupType
            = TextGroupType.Scene := by
        rw [numberScene_groupType]; exact hs
      simp only [updateItemNumbering, hs, if_true, hs2]
      rw [updateChildren_idem accepts haccepts cs st, numberScene_idem accepts haccepts]
    · simp only [updateItemNumbering, hs, if_false]
      rw [updateChildren_idem accepts haccepts cs st]
  | .text t, st => by
    simp only [updateItemNumbering]
    rw [numberParagraph_idem]
theorem updateChildren_idem (accepts : GroupData → List Item → Bool)
    (haccepts : ∀ g cs number, accepts { g with number := number } cs = accepts g cs) :
    ∀ (items : List Item) (st : NumberingState),
      updateChildNumbering (storeOps accepts)
          (updateChildNumbering (storeOps accepts) items st).1 st
        = updateChildNumbering (storeOps accepts) items st
  | [], st => by simp [updateChildNumbering]
  | c :: rest, st => by
    simp only [updateChildNumbering]
    rw [updateItem_idem accepts haccepts c st, updateChildren_idem accepts haccepts rest _]
end

/-- C28: with group operations that store what they are passed and keep the
flags, and whose answer does not depend on the number the group has,
`updateNumbering` is idempotent: a second run gives the tree and the variables
(`scenesCount` among them) that the first run gave, so every scene number and
every dialogue number stays what it was. -/
theorem updateNumbering_idempotent (accepts : GroupData → List Item → Bool)
    (haccepts : ∀ g cs number, accepts { g with number := number } cs = accepts g cs)
    (root : Item) :
    updateNumbering (storeOps accepts) (updateNumbering (storeOps accepts) root).1
        = updateNumbering (storeOps accepts) root
      ∧ scenes (updateNumbering (storeOps accepts)
            (updateNumbering (storeOps accepts) root).1).1
          = scenes (updateNumbering (storeOps accepts) root).1
      ∧ textLeaves (updateNumbering (storeOps accepts)
            (updateNumbering (storeOps accepts) root).1).1
          = textLeaves (updateNumbering (storeOps accepts) root).1
      ∧ (updateNumbering (storeOps accepts)
            (updateNumbering (storeOps accepts) root).1).2.scenesCount
          = (updateNumbering (storeOps accepts) root).2.scenesCount := by
  have e : updateNumbering (storeOps accepts) (updateNumbering (storeOps accepts) root).1
      = updateNumbering (storeOps accepts) root := by
    cases root with
    | folder cs =>
      simp only [updateNumbering, Item.children]
      rw [updateChildren_idem accepts haccepts cs initialNumbering]
    | group g cs =>
      simp only [updateNumbering, Item.children]
      rw [updateChildren_idem accepts haccepts cs initialNumbering]
    | text t => simp [updateNumbering, Item.children, updateChildNumbering]
  exact ⟨e, by rw [e], by rw [e], by rw [e]⟩

/-- C28 at a tree with a locked scene, an automatic scene holding a cue, a
scene whose `setNumber` fails and a custom scene. -/
theorem updateNumbering_idempotent_witness :
    updateNumbering (storeOps (fun g _ => refusesNine g))
          (updateNumbering (storeOps (fun g _ => refusesNine g))
            (Item.folder [sceneWith lockedFive [],
              sceneWith plainScene [paragraph TextParagraphType.Character "JOHN"],
              sceneWith (colouredScene 9) [], sceneWith customScene []])).1
        = updateNumbering (storeOps (fun g _ => refusesNine g))
            (Item.folder [sceneWith lockedFive [],
              sceneWith plainScene [paragraph TextParagraphType.Character "JOHN"],
              sceneWith (colouredScene 9) [], sceneWith customScene []])
      ∧ scenes (updateNumbering (storeOps (fun g _ => refusesNine g))
            (updateNumbering (storeOps (fun g _ => refusesNine g))
              (Item.folder [sceneWith lockedFive [],
                sceneWith plainScene [paragraph TextParagraphType.Character "JOHN"],
                sceneWith (colouredScene 9) [], sceneWith customScene []])).1).1
          = scenes (updateNumbering (storeOps (fun g _ => refusesNine g))
              (Item.folder [sceneWith lockedFive [],
                sceneWith plainScene [paragraph TextParagraphType.Character "JOHN"],
                sceneWith (colouredScene 9) [], sceneWith customScene []])).1
      ∧ textLeaves (updateNumbering (storeOps (fun g _ => refusesNine g))
            (updateNumbering (storeOps (fun g _ => refusesNine g))
              (Item.folder [sceneWith lockedFive [],
                sceneWith plainScene [paragraph TextParagraphType.Character "JOHN"],
                sceneWith (colouredScene 9) [], sceneWith customScene []])).1).1
          = textLeaves (updateNumbering (storeOps (fun g _ => refusesNine g))
              (Item.folder [sceneWith lockedFive [],
                sceneWith plainScene [paragraph TextParagraphType.Character "JOHN"],
                sceneWith (colouredScene 9) [], sceneWith customScene []])).1
      ∧ (updateNumbering (storeOps (fun g _ => refusesNine g))
            (updateNumbering (storeOps (fun g _ => refusesNine g))
              (Item.folder [sceneWith lockedFive [],
                sceneWith plainScene [paragraph TextParagraphType.Character "JOHN"],
                sceneWith (colouredScene 9) [], sceneWith customScene []])).1).2.scenesCount
          = (updateNumbering (storeOps (fun g _ => refusesNine g))
              (Item.folder [sceneWith lockedFive [],
                sceneWith plainScene [paragraph TextParagraphType.Character "JOHN"],
                sceneWith (colouredScene 9) [], sceneWith customScene []])).2.scenesCount :=
  updateNumbering_idempotent (fun g _ => refusesNine g) (fun _ _ _ => rfl)
    (Item.folder [sceneWith lockedFive [],
      sceneWith plainScene [paragraph TextParagraphType.Character "JOHN"],
      sceneWith (colouredScene 9) [], sceneWith customScene []])

/-! ## The dialogues of the empty name -/

/-- C23 fails on the code: renaming kim to Bob in the Action paragraph whose
text is "kim x" followed by KELVIN SIGN (U+212A) and "im" gives "Bob xBob".
The occurrence after x is not a whole word; replacing the whole-word
occurrences and nothing else leaves the second word as it is.  The matcher
compares letters by Unicode case folding, which joins the Kelvin sign with K,
but takes only ASCII characters for word characters, so it sees a word
boundary between x and the Kelvin sign.  On ASCII text the code does what the
claim says: in "Anna Lee and ANNA LEE, anna lee's (ANNA  LEE) Anna Leeds" the
three whole-word occurrences of anna lee are replaced, the one in capitals by
MARY SUE and the others by Mary Sue. -/
theorem updateCharacterName_replaces_inside_word :
    updateCharacterText 3 (smartToUpper (qs "kim")) (qs "Bob") TextParagraphType.Action
        (qs "kim x\u212Aim") = some (qs "Bob xBob")
    ∧ replaceWholeWords (qs "kim") (qs "Bob") (qs "kim x\u212Aim") = qs "Bob x\u212Aim"
    ∧ updateCharacterName 3 (qs "kim") (qs "Bob")
        [sceneWith plainScene [paragraph TextParagraphType.Action "kim x\u212Aim"]]
      = some [sceneWith plainScene [paragraph TextParagraphType.Action "Bob xBob"]]
    ∧ updateCharacterText 4 (smartToUpper (qs "anna lee")) (qs "mary sue")
        TextParagraphType.Action
        (qs "Anna Lee and ANNA LEE, anna lee's (ANNA  LEE) Anna Leeds")
      = some (qs "Mary Sue and MARY SUE, Mary Sue's (ANNA  LEE) Anna Leeds")
    ∧ replaceWholeWords (qs "anna lee") (qs "mary sue")
        (qs "Anna Lee and ANNA LEE, anna lee's (ANNA  LEE) Anna Leeds")
      = qs "Mary Sue and MARY SUE, Mary Sue's (ANNA  LEE) Anna Leeds" := by
  refine ⟨by decide, by decide, by rfl, by decide, by decide⟩

end Starc
